import Mathlib

/-!
Verification of the cave-generation script `cave_generation.py`.

The script builds a 2D grid of WALL/FLOOR cells: it seeds the interior at
random (borders forced to WALL), runs a cellular automaton for `ca_steps`
iterations, finds 8-connected FLOOR regions, carves L-shaped corridors from
the main (largest) region to every sufficiently large other region, and
finally runs a light smoothing pass `smoothing_passes` times.

The embedding below follows the Python source function by function.  Grids
are lists of rows of cells (`WALL = 1`, `FLOOR = 0`), indexed `[row][col]`
exactly as the NumPy array `grid[y, x]` is.  The ambient random source
(`random.random()`) is modelled as a stream `ℕ → ℚ` that is threaded through
the computation in program order; `scipy.ndimage.label` is not part of the
script and is modelled from the spec's contract for the Region Finder.
-/

namespace CaveGen

/-- Cell state WALL, as in the source (`WALL = 1`). -/
def WALL : ℕ := 1

/-- Cell state FLOOR, as in the source (`FLOOR = 0`). -/
def FLOOR : ℕ := 0

/-- A grid is a list of rows of cells; `grid[y, x]` is row `y`, column `x`. -/
abbrev Grid := List (List ℕ)

/-- A cell position `(y, x)` = (row, column), the order `np.argwhere` uses. -/
abbrev Pos := ℕ × ℕ

/-- Read `grid[y, x]`; out-of-range reads default to `0` (the callers in the
source only read in-bounds positions). -/
def getCell (g : Grid) (y x : ℕ) : ℕ := (g.getD y []).getD x 0

/-- Write `grid[y, x] = v`; out-of-range writes are dropped (the source only
writes in-bounds positions). -/
def setCell (g : Grid) (y x : ℕ) (v : ℕ) : Grid :=
  g.set y ((g.getD y []).set x v)

/-- The grid has `h` rows, each of length `w` (the shape `np.zeros((h, w))`
creates and every operation of the script preserves). -/
def Wf (g : Grid) (w h : ℕ) : Prop :=
  g.length = h ∧ ∀ row ∈ g, row.length = w

instance (g : Grid) (w h : ℕ) : Decidable (Wf g w h) := by
  unfold Wf; infer_instance

/-- `is_edge(x, y, width, height)` from the source. -/
def is_edge (x y width height : ℕ) : Bool :=
  x == 0 || y == 0 || x == width - 1 || y == height - 1

/-- `count_wall_neighbors(grid, x, y, width, height)` from the source: the
double loop over `dx, dy ∈ {-1, 0, 1}`, skipping `(0, 0)`, counting in-bounds
WALL neighbors and counting every out-of-bounds neighbor position as WALL. -/
def count_wall_neighbors (grid : Grid) (x y width height : ℕ) : ℕ :=
  ([-1, 0, 1] : List ℤ).foldl (fun count dx =>
    ([-1, 0, 1] : List ℤ).foldl (fun count dy =>
      let nx : ℤ := (x : ℤ) + dx
      let ny : ℤ := (y : ℤ) + dy
      if dx = 0 ∧ dy = 0 then count
      else if 0 ≤ nx ∧ nx < (width : ℤ) ∧ 0 ≤ ny ∧ ny < (height : ℤ) then
        (if getCell grid ny.toNat nx.toNat = WALL then count + 1 else count)
      else count + 1) count) 0

/-- The eight neighbor offsets `(dx, dy)` of a cell. -/
def neighborOffsets : List (ℤ × ℤ) :=
  [(-1, -1), (-1, 0), (-1, 1), (0, -1), (0, 1), (1, -1), (1, 0), (1, 1)]

/-- A neighbor position `(nx, ny)` counts as WALL when it is out of bounds or
holds a WALL cell (the spec's boundary policy for neighbor counting). -/
def wallOrOut (grid : Grid) (width height : ℕ) (q : ℤ × ℤ) : Bool :=
  if 0 ≤ q.1 ∧ q.1 < (width : ℤ) ∧ 0 ≤ q.2 ∧ q.2 < (height : ℤ) then
    decide (getCell grid q.2.toNat q.1.toNat = WALL)
  else true

/-- Spec-side neighbor count: among the 8 surrounding positions, the number
that are out of bounds or hold a WALL cell. -/
def countWallNeighborsSpec (grid : Grid) (x y width height : ℕ) : ℕ :=
  (neighborOffsets.map (fun d => ((x : ℤ) + d.1, (y : ℤ) + d.2))).countP
    (wallOrOut grid width height)

/-- One iteration of the neighbor-counting loop body, at neighbor position
`q = (nx, ny)` with running count `c`. -/
def contrib (g : Grid) (w h : ℕ) (q : ℤ × ℤ) (c : ℕ) : ℕ :=
  if 0 ≤ q.1 ∧ q.1 < (w : ℤ) ∧ 0 ≤ q.2 ∧ q.2 < (h : ℤ) then
    (if getCell g q.2.toNat q.1.toNat = WALL then c + 1 else c)
  else c + 1

theorem contrib_split (g : Grid) (w h : ℕ) (q : ℤ × ℤ) (c : ℕ) :
    contrib g w h q c = c + (if wallOrOut g w h q = true then 1 else 0) := by
  unfold contrib wallOrOut
  split_ifs <;> simp_all

/-- Unrolling of the neighbor-counting double loop into its eight visits. -/
theorem cwn_unfold (g : Grid) (x y w h : ℕ) :
    count_wall_neighbors g x y w h =
      contrib g w h ((x : ℤ) + 1, (y : ℤ) + 1)
        (contrib g w h ((x : ℤ) + 1, (y : ℤ) + 0)
          (contrib g w h ((x : ℤ) + 1, (y : ℤ) + -1)
            (contrib g w h ((x : ℤ) + 0, (y : ℤ) + 1)
              (contrib g w h ((x : ℤ) + 0, (y : ℤ) + -1)
                (contrib g w h ((x : ℤ) + -1, (y : ℤ) + 1)
                  (contrib g w h ((x : ℤ) + -1, (y : ℤ) + 0)
                    (contrib g w h ((x : ℤ) + -1, (y : ℤ) + -1) 0))))))) := rfl

/-! ## Cell access lemmas -/

theorem getD_row (g : Grid) (y : ℕ) (hy : y < g.length) :
    g.getD y [] = g[y] := by
  rw [List.getD_eq_getElem?_getD, List.getElem?_eq_getElem hy]
  rfl

theorem setCell_length (g : Grid) (y x v : ℕ) : (setCell g y x v).length = g.length := by
  unfold setCell
  exact List.length_set g y ((g.getD y []).set x v)

theorem getD_set {α : Type} (l : List α) (i j : ℕ) (a d : α) :
    (l.set i a).getD j d = if i = j ∧ i < l.length then a else l.getD j d := by
  rw [List.getD_eq_getElem?_getD, List.getElem?_set, List.getD_eq_getElem?_getD]
  by_cases h1 : i = j
  · subst h1
    by_cases h2 : i < l.length
    · simp [h2]
    · simp only [h2, if_false, if_true, if_neg (by tauto : ¬(i = i ∧ i < l.length))]
      rw [List.getElem?_eq_none (le_of_not_lt h2)]
      rfl
  · simp [h1]

theorem rowLen_wf {g : Grid} {w h : ℕ} (hwf : Wf g w h) {y : ℕ} (hy : y < h) :
    (g.getD y []).length = w := by
  obtain ⟨hlen, hrows⟩ := hwf
  have hyl : y < g.length := by omega
  rw [getD_row g y hyl]
  exact hrows _ (List.getElem_mem hyl)

theorem setCell_wf {g : Grid} {w h : ℕ} (hwf : Wf g w h) (y x v : ℕ) :
    Wf (setCell g y x v) w h := by
  obtain ⟨hlen, hrows⟩ := hwf
  refine ⟨by rw [setCell_length]; exact hlen, ?_⟩
  intro row hrow
  unfold setCell at hrow
  by_cases hy : y < g.length
  · rcases List.mem_or_eq_of_mem_set hrow with hmem | heq
    · exact hrows row hmem
    · subst heq
      rw [List.length_set]
      exact rowLen_wf ⟨hlen, hrows⟩ (by omega)
  · rw [List.set_eq_of_length_le (by omega)] at hrow
    exact hrows row hrow

theorem getCell_setCell_self {g : Grid} {w h : ℕ} (hwf : Wf g w h) {y x : ℕ}
    (hy : y < h) (hx : x < w) (v : ℕ) : getCell (setCell g y x v) y x = v := by
  have hyl : y < g.length := hy.trans_eq hwf.1.symm
  have hrow : (g.getD y []).length = w := rowLen_wf hwf hy
  unfold getCell setCell
  rw [getD_set, if_pos ⟨rfl, hyl⟩, getD_set, if_pos ⟨rfl, hx.trans_eq hrow.symm⟩]

theorem getCell_setCell_ne (g : Grid) {y x y' x' : ℕ} (v : ℕ)
    (hne : (y', x') ≠ (y, x)) : getCell (setCell g y x v) y' x' = getCell g y' x' := by
  unfold getCell setCell
  rw [getD_set]
  by_cases hy : y = y'
  · subst hy
    have hx : x ≠ x' := by simpa [Prod.ext_iff, eq_comm] using hne
    split_ifs with hcond
    · rw [getD_set, if_neg (by tauto)]
    · rfl
  · rw [if_neg (by tauto)]

/-! ## A double loop that writes a freshly computed value into each visited
cell of a copy of the grid, as the automaton step and the micro-smoother do.
The value function `f` reads only the ORIGINAL grid (it is fixed while the
loop runs); `f y x = none` means the loop body does not write cell `(y, x)`. -/

/-- One loop body execution: write `f y x` into the new grid if present. -/
def writeCell (f : ℕ → ℕ → Option ℕ) (ng : Grid) (y x : ℕ) : Grid :=
  match f y x with
  | some v => setCell ng y x v
  | none => ng

/-- The double loop `for y in ys: for x in xs: ...` writing into a copy. -/
def applyWrites (g : Grid) (ys xs : List ℕ) (f : ℕ → ℕ → Option ℕ) : Grid :=
  ys.foldl (fun ng y => xs.foldl (fun ng x => writeCell f ng y x) ng) g

theorem writeCell_wf {g : Grid} {w h : ℕ} (hwf : Wf g w h) (f : ℕ → ℕ → Option ℕ)
    (y x : ℕ) : Wf (writeCell f g y x) w h := by
  unfold writeCell
  cases f y x with
  | some v => exact setCell_wf hwf y x v
  | none => exact hwf

theorem foldl_row_wf {w h : ℕ} (f : ℕ → ℕ → Option ℕ) (y : ℕ) (xs : List ℕ) :
    ∀ {g : Grid}, Wf g w h → Wf (xs.foldl (fun ng x => writeCell f ng y x) g) w h := by
  induction xs with
  | nil => intro g hwf; exact hwf
  | cons x xs ih =>
      intro g hwf
      exact ih (writeCell_wf hwf f y x)

theorem applyWrites_wf {w h : ℕ} (ys xs : List ℕ) (f : ℕ → ℕ → Option ℕ) :
    ∀ {g : Grid}, Wf g w h → Wf (applyWrites g ys xs f) w h := by
  induction ys with
  | nil => intro g hwf; exact hwf
  | cons y ys ih =>
      intro g hwf
      exact ih (foldl_row_wf f y xs hwf)

theorem getCell_writeCell {g : Grid} {w h : ℕ} (hwf : Wf g w h)
    (f : ℕ → ℕ → Option ℕ) {y0 x0 : ℕ} (hy0 : y0 < h) (hx0 : x0 < w) (y x : ℕ) :
    getCell (writeCell f g y0 x0) y x =
      if y = y0 ∧ x = x0 then (f y0 x0).getD (getCell g y x) else getCell g y x := by
  unfold writeCell
  cases hfv : f y0 x0 with
  | none => split_ifs <;> rfl
  | some v =>
      split_ifs with hc
      · obtain ⟨h1, h2⟩ := hc
        subst h1; subst h2
        rw [getCell_setCell_self hwf hy0 hx0 v]
        rfl
      · refine getCell_setCell_ne g v ?_
        simp only [ne_eq, Prod.mk.injEq, not_and]
        intro hyy hxx
        exact hc ⟨hyy, hxx⟩

theorem getCell_foldl_row {w h : ℕ} (f : ℕ → ℕ → Option ℕ) (y0 : ℕ) (xs : List ℕ)
    (hy0 : y0 < h) (hxs : ∀ x ∈ xs, x < w) :
    ∀ {g : Grid}, Wf g w h → ∀ y x,
      getCell (xs.foldl (fun ng x' => writeCell f ng y0 x') g) y x =
        if y = y0 ∧ x ∈ xs then (f y0 x).getD (getCell g y x) else getCell g y x := by
  induction xs with
  | nil => intro g _ y x; simp
  | cons x0 xs ih =>
      intro g hwf y x
      rw [List.foldl_cons]
      have hx0w : x0 < w := hxs x0 (List.mem_cons_self x0 xs)
      have hg' : Wf (writeCell f g y0 x0) w h := writeCell_wf hwf f y0 x0
      rw [ih (fun x' hx' => hxs x' (List.mem_cons_of_mem _ hx')) hg' y x]
      have hcell := getCell_writeCell hwf f hy0 hx0w
      by_cases hy : y = y0
      · subst hy
        by_cases hx0 : x = x0
        · subst hx0
          by_cases hxx : x ∈ xs
          · simp only [hcell, List.mem_cons, hxx, and_true, if_pos rfl, true_or,
              and_self, if_true]
            cases hf : f y x <;> simp [hf]
          · simp only [hcell, List.mem_cons, hxx, and_false, if_false, if_pos rfl,
              and_self, if_true, true_or, and_true]
        · by_cases hxx : x ∈ xs
          · simp [hcell, List.mem_cons, hxx, hx0]
          · simp [hcell, List.mem_cons, hxx, hx0]
      · simp [hcell, hy]

theorem applyWrites_cons (g : Grid) (y0 : ℕ) (ys xs : List ℕ) (f : ℕ → ℕ → Option ℕ) :
    applyWrites g (y0 :: ys) xs f =
      applyWrites (xs.foldl (fun ng x => writeCell f ng y0 x) g) ys xs f := rfl

theorem getCell_applyWrites {w h : ℕ} (ys xs : List ℕ) (f : ℕ → ℕ → Option ℕ)
    (hys : ∀ y ∈ ys, y < h) (hxs : ∀ x ∈ xs, x < w) :
    ∀ {g : Grid}, Wf g w h → ∀ y x,
      getCell (applyWrites g ys xs f) y x =
        if y ∈ ys ∧ x ∈ xs then (f y x).getD (getCell g y x) else getCell g y x := by
  induction ys with
  | nil => intro g _ y x; simp [applyWrites]
  | cons y0 ys ih =>
      intro g hwf y x
      rw [applyWrites_cons]
      have hg' : Wf (xs.foldl (fun ng x' => writeCell f ng y0 x') g) w h :=
        foldl_row_wf f y0 xs hwf
      rw [ih (fun y' hy' => hys y' (List.mem_cons_of_mem _ hy')) hg' y x]
      have hrow := getCell_foldl_row f y0 xs (hys y0 (List.mem_cons_self y0 ys)) hxs hwf y x
      by_cases hmem : y ∈ ys ∧ x ∈ xs
      · rw [if_pos hmem, if_pos ⟨List.mem_cons_of_mem _ hmem.1, hmem.2⟩, hrow]
        by_cases hyy : y = y0
        · subst hyy
          rw [if_pos ⟨rfl, hmem.2⟩]
          cases hfv : f y x <;> simp [hfv]
        · rw [if_neg (by tauto)]
      · rw [if_neg hmem, hrow]
        by_cases hrowmem : y = y0 ∧ x ∈ xs
        · obtain ⟨h1, h2⟩ := hrowmem
          subst h1
          rw [if_pos ⟨rfl, h2⟩, if_pos ⟨List.mem_cons_self y ys, h2⟩]
        · rw [if_neg hrowmem]
          have hn : ¬(y ∈ y0 :: ys ∧ x ∈ xs) := by
            intro hcon
            rcases List.mem_cons.mp hcon.1 with h1 | h2
            · exact hrowmem ⟨h1, hcon.2⟩
            · exact hmem ⟨h2, hcon.2⟩
          rw [if_neg hn]

/-! ## The automaton step and the micro-smoother -/

/-- The value the automaton loop body writes into `new_grid[y, x]`: reading
the CURRENT grid `g`, a WALL cell survives iff `n >= survive`, a FLOOR cell
is born WALL iff `n >= birth`. -/
def caRule (g : Grid) (width height : ℕ) (birth survive : ℤ) (y x : ℕ) : ℕ :=
  let n := count_wall_neighbors g x y width height
  if getCell g y x = WALL then (if survive ≤ (n : ℤ) then WALL else FLOOR)
  else (if birth ≤ (n : ℤ) then WALL else FLOOR)

/-- One automaton step of `generate_cave`: `new_grid = grid.copy()`, then the
double loop over all cells writes `caRule` of the OLD grid into `new_grid`,
and the result replaces the grid. -/
def caStep (g : Grid) (width height : ℕ) (birth survive : ℤ) : Grid :=
  applyWrites g (List.range height) (List.range width)
    (fun y x => some (caRule g width height birth survive y x))

/-- `micro_smooth(grid, width, height)` from the source: `new_grid` starts as
a copy, the loop ranges over interior cells only, counts neighbors in the
ORIGINAL grid, writes WALL when `n > 5`, FLOOR when `n < 3`, else leaves the
copied value. -/
def micro_smooth (g : Grid) (width height : ℕ) : Grid :=
  applyWrites g (List.range' 1 (height - 1 - 1)) (List.range' 1 (width - 1 - 1))
    (fun y x =>
      let n := count_wall_neighbors g x y width height
      if n > 5 then some WALL else if n < 3 then some FLOOR else none)

/-- The grid whose cell `(y, x)` is `f y x`, for comparing loop results with
their pointwise specification. -/
def gridOfFn (w h : ℕ) (f : ℕ → ℕ → ℕ) : Grid :=
  (List.range h).map (fun y => (List.range w).map (f y))

theorem gridOfFn_wf (w h : ℕ) (f : ℕ → ℕ → ℕ) : Wf (gridOfFn w h f) w h := by
  constructor
  · simp [gridOfFn]
  · intro row hrow
    simp only [gridOfFn, List.mem_map] at hrow
    obtain ⟨y, _, hrow⟩ := hrow
    simp [← hrow]

theorem getCell_getElem {g : Grid} (y x : ℕ) (hy' : y < g.length)
    (hx' : x < g[y].length) : getCell g y x = g[y][x] := by
  unfold getCell
  rw [getD_row g y hy', List.getD_eq_getElem?_getD, List.getElem?_eq_getElem hx']
  rfl

theorem getCell_gridOfFn (w h : ℕ) (f : ℕ → ℕ → ℕ) {y x : ℕ} (hy : y < h)
    (hx : x < w) : getCell (gridOfFn w h f) y x = f y x := by
  unfold getCell gridOfFn
  have h1 : (List.map (fun y => List.map (f y) (List.range w)) (List.range h)).length = h := by
    simp
  rw [getD_row _ y (by omega), List.getElem_map, List.getElem_range]
  rw [List.getD_eq_getElem?_getD,
    List.getElem?_eq_getElem (by simpa using hx), List.getElem_map, List.getElem_range]
  rfl

theorem grid_ext {g g' : Grid} {w h : ℕ} (hwf : Wf g w h) (hwf' : Wf g' w h)
    (hcell : ∀ y, y < h → ∀ x, x < w → getCell g y x = getCell g' y x) : g = g' := by
  refine List.ext_getElem (by rw [hwf.1, hwf'.1]) ?_
  intro n h1 h2
  have hn : n < h := by rw [← hwf.1]; exact h1
  have hl1 : g[n].length = w := hwf.2 _ (List.getElem_mem h1)
  have hl2 : (g'[n]).length = w := hwf'.2 _ (List.getElem_mem h2)
  refine List.ext_getElem (by rw [hl1, hl2]) ?_
  intro m hm1 hm2
  have hmw : m < w := by rw [← hl1]; exact hm1
  rw [← getCell_getElem n m h1 hm1, ← getCell_getElem n m h2 hm2]
  exact hcell n hn m hmw

theorem caStep_wf {g : Grid} {w h : ℕ} (hwf : Wf g w h) (birth survive : ℤ) :
    Wf (caStep g w h birth survive) w h :=
  applyWrites_wf _ _ _ hwf

theorem micro_smooth_wf {g : Grid} {w h : ℕ} (hwf : Wf g w h) :
    Wf (micro_smooth g w h) w h :=
  applyWrites_wf _ _ _ hwf

/-- Pointwise reading of one automaton step: each new cell is `caRule` of the
previous grid, independently of the sequential write order. -/
theorem caStep_getCell {g : Grid} {w h : ℕ} (hwf : Wf g w h) (birth survive : ℤ)
    {y x : ℕ} (hy : y < h) (hx : x < w) :
    getCell (caStep g w h birth survive) y x = caRule g w h birth survive y x := by
  unfold caStep
  rw [getCell_applyWrites (List.range h) (List.range w) _
    (fun y' hy' => List.mem_range.mp hy') (fun x' hx' => List.mem_range.mp hx') hwf y x]
  rw [if_pos ⟨List.mem_range.mpr hy, List.mem_range.mpr hx⟩]
  rfl

/-- Pointwise reading of one micro-smoothing pass. -/
theorem micro_smooth_getCell {g : Grid} {w h : ℕ} (hwf : Wf g w h)
    {y x : ℕ} (hy : y < h) (hx : x < w) :
    getCell (micro_smooth g w h) y x =
      if 1 ≤ y ∧ y + 1 < h ∧ 1 ≤ x ∧ x + 1 < w then
        (if count_wall_neighbors g x y w h > 5 then WALL
         else if count_wall_neighbors g x y w h < 3 then FLOOR
         else getCell g y x)
      else getCell g y x := by
  unfold micro_smooth
  rw [getCell_applyWrites (List.range' 1 (h - 1 - 1)) (List.range' 1 (w - 1 - 1)) _
    (fun y' hy' => by have := List.mem_range'_1.mp hy'; omega)
    (fun x' hx' => by have := List.mem_range'_1.mp hx'; omega) hwf y x]
  by_cases hin : 1 ≤ y ∧ y + 1 < h ∧ 1 ≤ x ∧ x + 1 < w
  · rw [if_pos ⟨List.mem_range'_1.mpr (by omega), List.mem_range'_1.mpr (by omega)⟩,
      if_pos hin]
    by_cases h5 : count_wall_neighbors g x y w h > 5
    · simp [h5]
    · by_cases h3 : count_wall_neighbors g x y w h < 3 <;> simp [h5, h3]
  · rw [if_neg (fun hcon => hin (by
      have hy' := List.mem_range'_1.mp hcon.1
      have hx' := List.mem_range'_1.mp hcon.2
      omega)), if_neg hin]

/-- Claim C8: for every grid and cell position, `count_wall_neighbors` returns
the number of the 8 surrounding positions that are outside the grid bounds or
hold a WALL cell; every out-of-bounds neighbor contributes 1 exactly as a WALL
cell would. -/
theorem claim_C8 (g : Grid) (x y w h : ℕ) :
    count_wall_neighbors g x y w h = countWallNeighborsSpec g x y w h := by
  rw [cwn_unfold]
  simp only [countWallNeighborsSpec, neighborOffsets, List.map_cons, List.map_nil,
    List.countP_cons, List.countP_nil, contrib_split]
  ring

/-- Claim C1: one automaton step computes the next grid wholly from the current
grid: the result equals the grid whose every cell is `caRule` (neighbor count
and WALL/FLOOR test read in the pre-step grid, survive/birth thresholds applied
as stated), so no cell's update observes another cell's same-step update, and
the grid is replaced only after the full pass. -/
theorem claim_C1 {g : Grid} {w h : ℕ} (hwf : Wf g w h) (birth survive : ℤ) :
    caStep g w h birth survive = gridOfFn w h (caRule g w h birth survive) :=
  grid_ext (caStep_wf hwf birth survive) (gridOfFn_wf w h _)
    (fun y hy x hx => by
      rw [caStep_getCell hwf birth survive hy hx, getCell_gridOfFn w h _ hy hx])

theorem claim_C1_witness :
    Wf [[1, 0], [0, 1]] 2 2 ∧
      caStep [[1, 0], [0, 1]] 2 2 5 4 =
        gridOfFn 2 2 (caRule [[1, 0], [0, 1]] 2 2 5 4) :=
  ⟨by decide, claim_C1 (by decide) 5 4⟩

/-- Claim C6: one micro-smoothing pass sets each interior cell to WALL when its
wall-neighbor count in the INPUT grid exceeds 5, to FLOOR when it is below 3,
and otherwise keeps the input value; border cells are never written. -/
theorem claim_C6 {g : Grid} {w h : ℕ} (hwf : Wf g w h) :
    micro_smooth g w h = gridOfFn w h (fun y x =>
      if 1 ≤ y ∧ y + 1 < h ∧ 1 ≤ x ∧ x + 1 < w then
        (if count_wall_neighbors g x y w h > 5 then WALL
         else if count_wall_neighbors g x y w h < 3 then FLOOR
         else getCell g y x)
      else getCell g y x) :=
  grid_ext (micro_smooth_wf hwf) (gridOfFn_wf w h _)
    (fun y hy x hx => by
      rw [micro_smooth_getCell hwf hy hx, getCell_gridOfFn w h _ hy hx])

theorem claim_C6_witness :
    Wf [[1, 1, 0], [1, 0, 0], [1, 0, 0]] 3 3 ∧
      micro_smooth [[1, 1, 0], [1, 0, 0], [1, 0, 0]] 3 3 =
        gridOfFn 3 3 (fun y x =>
          if 1 ≤ y ∧ y + 1 < 3 ∧ 1 ≤ x ∧ x + 1 < 3 then
            (if count_wall_neighbors [[1, 1, 0], [1, 0, 0], [1, 0, 0]] x y 3 3 > 5 then WALL
             else if count_wall_neighbors [[1, 1, 0], [1, 0, 0], [1, 0, 0]] x y 3 3 < 3 then FLOOR
             else getCell [[1, 1, 0], [1, 0, 0], [1, 0, 0]] y x)
          else getCell [[1, 1, 0], [1, 0, 0], [1, 0, 0]] y x) :=
  ⟨by decide, claim_C6 (by decide)⟩

/-- Claim C7: on a grid where every interior cell's wall-neighbor count lies in
the inclusive range [3, 5], the micro-smoothing pass is the identity. -/
theorem claim_C7 {g : Grid} {w h : ℕ} (hwf : Wf g w h)
    (hn : ∀ y x, 1 ≤ y → y + 1 < h → 1 ≤ x → x + 1 < w →
      3 ≤ count_wall_neighbors g x y w h ∧ count_wall_neighbors g x y w h ≤ 5) :
    micro_smooth g w h = g :=
  grid_ext (micro_smooth_wf hwf) hwf
    (fun y hy x hx => by
      rw [micro_smooth_getCell hwf hy hx]
      by_cases hin : 1 ≤ y ∧ y + 1 < h ∧ 1 ≤ x ∧ x + 1 < w
      · obtain ⟨h1, h2, h3, h4⟩ := hin
        have hb := hn y x h1 h2 h3 h4
        rw [if_pos ⟨h1, h2, h3, h4⟩, if_neg (by omega), if_neg (by omega)]
      · rw [if_neg hin])

theorem claim_C7_witness :
    Wf [[1, 1, 0], [1, 0, 0], [1, 0, 0]] 3 3 ∧
      (∀ y x, 1 ≤ y → y + 1 < 3 → 1 ≤ x → x + 1 < 3 →
        3 ≤ count_wall_neighbors [[1, 1, 0], [1, 0, 0], [1, 0, 0]] x y 3 3 ∧
          count_wall_neighbors [[1, 1, 0], [1, 0, 0], [1, 0, 0]] x y 3 3 ≤ 5) ∧
      micro_smooth [[1, 1, 0], [1, 0, 0], [1, 0, 0]] 3 3 = [[1, 1, 0], [1, 0, 0], [1, 0, 0]] := by
  have hwf : Wf [[1, 1, 0], [1, 0, 0], [1, 0, 0]] 3 3 := by decide
  have hn : ∀ y x, 1 ≤ y → y + 1 < 3 → 1 ≤ x → x + 1 < 3 →
      3 ≤ count_wall_neighbors [[1, 1, 0], [1, 0, 0], [1, 0, 0]] x y 3 3 ∧
        count_wall_neighbors [[1, 1, 0], [1, 0, 0], [1, 0, 0]] x y 3 3 ≤ 5 := by
    intro y x h1 h2 h3 h4
    have hy1 : y = 1 := by omega
    have hx1 : x = 1 := by omega
    subst hy1; subst hx1
    decide
  exact ⟨hwf, hn, claim_C7 hwf hn⟩

/-! ## The corridor carver -/

/-- The ambient random source `random.random()`: a stream of rationals, read
one value at a time. -/
abbrev RNG := ℕ → ℚ

/-- Draw the next random value and advance the stream. -/
def randNext (r : RNG) : ℚ × RNG := (r 0, fun n => r (n + 1))

/-- Manhattan distance `abs(x1 - x2) + abs(y1 - y2)` between two `(y, x)`
cells. -/
def distM (p q : Pos) : ℕ :=
  ((p.2 : ℤ) - (q.2 : ℤ)).natAbs + ((p.1 : ℤ) - (q.1 : ℤ)).natAbs

/-- `dist < min_dist` where `min_dist` starts as `float('inf')` (`none`). -/
def ltInf (d : ℕ) (m : Option ℕ) : Bool :=
  match m with
  | none => true
  | some m' => d < m'

/-- Body of the all-pairs scan: keep the new pair only when its distance is
strictly below the running minimum. -/
def scanStep (st : Option ℕ × (Pos × Pos)) (pq : Pos × Pos) : Option ℕ × (Pos × Pos) :=
  if ltInf (distM pq.1 pq.2) st.1 then (some (distM pq.1 pq.2), pq) else st

/-- The exhaustive all-pairs scan of `carve_corridor`: outer loop over
`region_a`, inner loop over `region_b`, starting from
`best_pair = (region_a[0], region_b[0])` and `min_dist = inf`. -/
def scanBest (region_a region_b : List Pos) : Option ℕ × (Pos × Pos) :=
  region_a.foldl (fun st p => region_b.foldl (fun st q => scanStep st (p, q)) st)
    (none, (region_a.headD (0, 0), region_b.headD (0, 0)))

/-- All pairs in scan order: outer loop over `region_a`, inner over
`region_b`. -/
def pairScan (region_a region_b : List Pos) : List (Pos × Pos) :=
  region_a.flatMap (fun p => region_b.map (fun q => (p, q)))

/-- `range(a, b + 1)` as used by the carving loops. -/
def rangeIncl (a b : ℕ) : List ℕ := List.range' a (b + 1 - a)

/-- The two carving branches of `carve_corridor` on the chosen endpoint pair
`((y1, x1), (y2, x2))`: `branch = true` carves the row of `(y1, x1)` then the
column of `(y2, x2)`; `branch = false` carves the column of `(y1, x1)` then
the row of `(y2, x2)`.  Every touched cell is set to FLOOR. -/
def carveBranch (g : Grid) (pq : Pos × Pos) (branch : Bool) : Grid :=
  if branch then
    let g1 := (rangeIncl (min pq.1.2 pq.2.2) (max pq.1.2 pq.2.2)).foldl
      (fun g' xi => setCell g' pq.1.1 xi FLOOR) g
    (rangeIncl (min pq.1.1 pq.2.1) (max pq.1.1 pq.2.1)).foldl
      (fun g' yi => setCell g' yi pq.2.2 FLOOR) g1
  else
    let g1 := (rangeIncl (min pq.1.1 pq.2.1) (max pq.1.1 pq.2.1)).foldl
      (fun g' yi => setCell g' yi pq.1.2 FLOOR) g
    (rangeIncl (min pq.1.2 pq.2.2) (max pq.1.2 pq.2.2)).foldl
      (fun g' xi => setCell g' pq.2.1 xi FLOOR) g1

/-- `carve_corridor(grid, region_a, region_b)` from the source: pick the
closest pair by the all-pairs scan, draw one random value, and carve the
L-shaped corridor (horizontal-first when the value is below 0.5). -/
def carve_corridor (g : Grid) (region_a region_b : List Pos) (rng : RNG) : Grid × RNG :=
  let r := randNext rng
  (carveBranch g (scanBest region_a region_b).2 (decide (r.1 < (1 : ℚ)/2)), r.2)

/-- The cells of the two carved segments of `carveBranch`. -/
def onCorridor (pq : Pos × Pos) (branch : Bool) (y x : ℕ) : Prop :=
  if branch then
    (y = pq.1.1 ∧ min pq.1.2 pq.2.2 ≤ x ∧ x ≤ max pq.1.2 pq.2.2) ∨
    (x = pq.2.2 ∧ min pq.1.1 pq.2.1 ≤ y ∧ y ≤ max pq.1.1 pq.2.1)
  else
    (x = pq.1.2 ∧ min pq.1.1 pq.2.1 ≤ y ∧ y ≤ max pq.1.1 pq.2.1) ∨
    (y = pq.2.1 ∧ min pq.1.2 pq.2.2 ≤ x ∧ x ≤ max pq.1.2 pq.2.2)

instance (pq : Pos × Pos) (branch : Bool) (y x : ℕ) :
    Decidable (onCorridor pq branch y x) := by
  unfold onCorridor; infer_instance

/-- Invariant of the all-pairs scan over the processed prefix `L`: the state
holds the minimal distance `m` over `L`, and the recorded pair is the FIRST
pair of `L` attaining it. -/
def scanInv (L : List (Pos × Pos)) (st : Option ℕ × (Pos × Pos)) : Prop :=
  ∃ m, st.1 = some m ∧ st.2 ∈ L ∧ distM st.2.1 st.2.2 = m ∧
    (∀ pq ∈ L, m ≤ distM pq.1 pq.2) ∧
    L.find? (fun pq => decide (distM pq.1 pq.2 ≤ m)) = some st.2

theorem scanStep_inv {L : List (Pos × Pos)} {st : Option ℕ × (Pos × Pos)}
    (c : Pos × Pos) (h : scanInv L st) : scanInv (L ++ [c]) (scanStep st c) := by
  obtain ⟨m, hm, hmem, hdist, hmin, hfind⟩ := h
  by_cases hlt : distM c.1 c.2 < m
  · have hstep : scanStep st c = (some (distM c.1 c.2), c) := by
      unfold scanStep
      rw [hm]
      simp [ltInf, hlt]
    rw [hstep]
    refine ⟨distM c.1 c.2, rfl, List.mem_append_right _ (List.mem_singleton.mpr rfl),
      rfl, ?_, ?_⟩
    · intro pq hpq
      rcases List.mem_append.mp hpq with hL | hc
      · have := hmin pq hL
        omega
      · rw [List.mem_singleton.mp hc]
    · rw [List.find?_append]
      have hnone : L.find? (fun pq => decide (distM pq.1 pq.2 ≤ distM c.1 c.2)) = none := by
        rw [List.find?_eq_none]
        intro pq hpq
        have := hmin pq hpq
        simp only [decide_eq_true_eq]
        omega
      rw [hnone]
      simp [List.find?]
  · have hstep : scanStep st c = st := by
      unfold scanStep
      rw [hm]
      simp [ltInf, hlt]
    rw [hstep]
    refine ⟨m, hm, List.mem_append_left _ hmem, hdist, ?_, ?_⟩
    · intro pq hpq
      rcases List.mem_append.mp hpq with hL | hc
      · exact hmin pq hL
      · rw [List.mem_singleton.mp hc]
        omega
    · rw [List.find?_append, hfind]
      rfl

theorem scanFold_inv (cs : List (Pos × Pos)) :
    ∀ {L : List (Pos × Pos)} {st : Option ℕ × (Pos × Pos)}, scanInv L st →
      scanInv (L ++ cs) (cs.foldl scanStep st) := by
  induction cs with
  | nil =>
      intro L st h
      simpa using h
  | cons c cs ih =>
      intro L st h
      rw [List.foldl_cons]
      have h2 := ih (scanStep_inv c h)
      rw [List.append_assoc] at h2
      simpa using h2

theorem foldl_flatMap {α β σ : Type} (A : List α) (f : α → List β) (g : σ → β → σ)
    (init : σ) :
    (A.flatMap f).foldl g init = A.foldl (fun s a => (f a).foldl g s) init := by
  induction A generalizing init with
  | nil => rfl
  | cons a A ih => rw [List.flatMap_cons, List.foldl_append, List.foldl_cons, ih]

theorem scanBest_eq_foldl (A B : List Pos) :
    scanBest A B =
      (pairScan A B).foldl scanStep (none, (A.headD (0, 0), B.headD (0, 0))) := by
  unfold scanBest pairScan
  rw [foldl_flatMap]
  congr 1
  funext st p
  rw [List.foldl_map]

theorem scanBest_spec (A B : List Pos) (hA : A ≠ []) (hB : B ≠ []) :
    scanInv (pairScan A B) (scanBest A B) := by
  obtain ⟨a, A', rfl⟩ := List.exists_cons_of_ne_nil hA
  obtain ⟨b, B', rfl⟩ := List.exists_cons_of_ne_nil hB
  rw [scanBest_eq_foldl]
  have hpairs : pairScan (a :: A') (b :: B') =
      (a, b) :: (B'.map (fun q => (a, q)) ++ pairScan A' (b :: B')) := by
    unfold pairScan
    rw [List.flatMap_cons, List.map_cons]
    rfl
  rw [hpairs, List.foldl_cons]
  have hinit : scanStep (none, ((a :: A').headD (0, 0), (b :: B').headD (0, 0))) (a, b)
      = (some (distM a b), (a, b)) := by
    unfold scanStep
    simp [ltInf]
  rw [hinit]
  have hbase : scanInv [(a, b)] (some (distM a b), (a, b)) := by
    refine ⟨distM a b, rfl, List.mem_singleton.mpr rfl, rfl, ?_, ?_⟩
    · intro pq hpq
      rw [List.mem_singleton.mp hpq]
    · simp [List.find?]
  have hres := scanFold_inv (B'.map (fun q => (a, q)) ++ pairScan A' (b :: B')) hbase
  simpa using hres

theorem scanBest_mem (A B : List Pos) (hA : A ≠ []) (hB : B ≠ []) :
    (scanBest A B).2.1 ∈ A ∧ (scanBest A B).2.2 ∈ B := by
  obtain ⟨m, _, hmem, _, _, _⟩ := scanBest_spec A B hA hB
  unfold pairScan at hmem
  rw [List.mem_flatMap] at hmem
  obtain ⟨p, hp, hq⟩ := hmem
  rw [List.mem_map] at hq
  obtain ⟨q, hqB, hpq⟩ := hq
  constructor
  · rw [← hpq]
    exact hp
  · rw [← hpq]
    exact hqB

/-- Claim C3: `carve_corridor` chooses as endpoints the pair `(p ∈ main,
q ∈ candidate)` of minimal Manhattan distance, and among ties the pair
encountered first in the exhaustive all-pairs scan (outer loop over `main` in
order, inner loop over `candidate` in order): the chosen pair is a member of
the scan list, its distance is a lower bound over all pairs, and it is the
first element of the scan list whose distance reaches that minimum. -/
theorem claim_C3 (A B : List Pos) (hA : A ≠ []) (hB : B ≠ []) :
    (scanBest A B).2 ∈ pairScan A B ∧
    (∀ p ∈ A, ∀ q ∈ B,
      distM (scanBest A B).2.1 (scanBest A B).2.2 ≤ distM p q) ∧
    (pairScan A B).find?
        (fun pq => decide (distM pq.1 pq.2 ≤ distM (scanBest A B).2.1 (scanBest A B).2.2))
      = some (scanBest A B).2 := by
  obtain ⟨m, hm, hmem, hdist, hmin, hfind⟩ := scanBest_spec A B hA hB
  refine ⟨hmem, ?_, ?_⟩
  · intro p hp q hq
    have hpair : (p, q) ∈ pairScan A B := by
      unfold pairScan
      rw [List.mem_flatMap]
      exact ⟨p, hp, List.mem_map.mpr ⟨q, hq, rfl⟩⟩
    have h1 : m ≤ distM p q := by simpa using hmin (p, q) hpair
    omega
  · rw [hdist]
    exact hfind

theorem claim_C3_witness :
    ([((0 : ℕ), (0 : ℕ)), (0, 3)] ≠ ([] : List Pos)) ∧
    ([((5 : ℕ), (0 : ℕ)), (1, 4)] ≠ ([] : List Pos)) ∧
    ((scanBest [(0, 0), (0, 3)] [(5, 0), (1, 4)]).2 ∈
        pairScan [(0, 0), (0, 3)] [(5, 0), (1, 4)] ∧
      (∀ p ∈ [((0 : ℕ), (0 : ℕ)), (0, 3)], ∀ q ∈ [((5 : ℕ), (0 : ℕ)), (1, 4)],
        distM (scanBest [(0, 0), (0, 3)] [(5, 0), (1, 4)]).2.1
            (scanBest [(0, 0), (0, 3)] [(5, 0), (1, 4)]).2.2 ≤ distM p q) ∧
      (pairScan [(0, 0), (0, 3)] [(5, 0), (1, 4)]).find?
          (fun pq => decide (distM pq.1 pq.2 ≤
            distM (scanBest [(0, 0), (0, 3)] [(5, 0), (1, 4)]).2.1
              (scanBest [(0, 0), (0, 3)] [(5, 0), (1, 4)]).2.2))
        = some (scanBest [(0, 0), (0, 3)] [(5, 0), (1, 4)]).2) :=
  ⟨by decide, by decide,
    claim_C3 [(0, 0), (0, 3)] [(5, 0), (1, 4)] (by decide) (by decide)⟩

/-! ## Frame properties of the carving folds -/

theorem getCell_setCell_cases (g : Grid) (y x v y' x' : ℕ) :
    getCell (setCell g y x v) y' x' = getCell g y' x' ∨
      getCell (setCell g y x v) y' x' = v := by
  unfold getCell setCell
  rw [getD_set]
  split_ifs with h1
  · rw [getD_set]
    split_ifs with h2
    · right
      rfl
    · left
      rw [h1.1]
  · left
    rfl

theorem setFloor_fold_wf {w h : ℕ} (ps : List Pos) :
    ∀ {g : Grid}, Wf g w h →
      Wf (ps.foldl (fun g' c => setCell g' c.1 c.2 FLOOR) g) w h := by
  induction ps with
  | nil => intro g hwf; exact hwf
  | cons c ps ih => intro g hwf; exact ih (setCell_wf hwf c.1 c.2 FLOOR)

theorem getCell_setFloor_fold {w h : ℕ} (ps : List Pos)
    (hps : ∀ c ∈ ps, c.1 < h ∧ c.2 < w) :
    ∀ {g : Grid}, Wf g w h → ∀ y x,
      getCell (ps.foldl (fun g' c => setCell g' c.1 c.2 FLOOR) g) y x =
        if (y, x) ∈ ps then FLOOR else getCell g y x := by
  induction ps with
  | nil => intro g _ y x; simp
  | cons c ps ih =>
      intro g hwf y x
      rw [List.foldl_cons,
        ih (fun c' hc' => hps c' (List.mem_cons_of_mem _ hc'))
          (setCell_wf hwf c.1 c.2 FLOOR) y x]
      by_cases hmem : (y, x) ∈ ps
      · rw [if_pos hmem, if_pos (List.mem_cons_of_mem _ hmem)]
      · rw [if_neg hmem]
        by_cases hc : (y, x) = c
        · rw [if_pos (by rw [hc]; exact List.mem_cons_self c ps)]
          obtain ⟨hc1, hc2⟩ := hps c (List.mem_cons_self c ps)
          have : getCell (setCell g c.1 c.2 FLOOR) y x = FLOOR := by
            have hy : y = c.1 := by rw [← hc]
            have hx : x = c.2 := by rw [← hc]
            rw [hy, hx]
            exact getCell_setCell_self hwf hc1 hc2 FLOOR
          exact this
        · rw [if_neg (by
            intro hcon
            rcases List.mem_cons.mp hcon with h1 | h2
            · exact hc h1
            · exact hmem h2)]
          refine getCell_setCell_ne g FLOOR ?_
          intro hcon
          exact hc (by rw [hcon])

theorem getCell_setFloor_fold_floor (ps : List Pos) :
    ∀ {g : Grid} (y x : ℕ), getCell g y x = FLOOR →
      getCell (ps.foldl (fun g' c => setCell g' c.1 c.2 FLOOR) g) y x = FLOOR := by
  induction ps with
  | nil => intro g y x hfl; exact hfl
  | cons c ps ih =>
      intro g y x hfl
      rw [List.foldl_cons]
      refine ih y x ?_
      rcases getCell_setCell_cases g c.1 c.2 FLOOR y x with hcase | hcase <;>
        rw [hcase]
      exact hfl

theorem rowFold_eq_posFold (g : Grid) (y0 : ℕ) (l : List ℕ) :
    l.foldl (fun g' xi => setCell g' y0 xi FLOOR) g =
      (l.map (fun xi => ((y0 : ℕ), xi))).foldl (fun g' c => setCell g' c.1 c.2 FLOOR) g := by
  rw [List.foldl_map]

theorem colFold_eq_posFold (g : Grid) (x0 : ℕ) (l : List ℕ) :
    l.foldl (fun g' yi => setCell g' yi x0 FLOOR) g =
      (l.map (fun yi => (yi, (x0 : ℕ)))).foldl (fun g' c => setCell g' c.1 c.2 FLOOR) g := by
  rw [List.foldl_map]

theorem mem_rangeIncl {a b x : ℕ} (hab : a ≤ b) : x ∈ rangeIncl a b ↔ a ≤ x ∧ x ≤ b := by
  unfold rangeIncl
  rw [List.mem_range'_1]
  omega

theorem getCell_carveRow {g : Grid} {w h : ℕ} (hwf : Wf g w h) {y0 a b : ℕ}
    (hy0 : y0 < h) (hab : a ≤ b) (hb : b < w) (y x : ℕ) :
    getCell ((rangeIncl a b).foldl (fun g' xi => setCell g' y0 xi FLOOR) g) y x =
      if y = y0 ∧ a ≤ x ∧ x ≤ b then FLOOR else getCell g y x := by
  rw [rowFold_eq_posFold]
  rw [getCell_setFloor_fold _ (by
    intro c hc
    rw [List.mem_map] at hc
    obtain ⟨xi, hxi, hceq⟩ := hc
    have := (mem_rangeIncl hab).mp hxi
    rw [← hceq]
    exact ⟨hy0, by omega⟩) hwf y x]
  by_cases hcond : y = y0 ∧ a ≤ x ∧ x ≤ b
  · rw [if_pos hcond, if_pos (by
      rw [List.mem_map]
      exact ⟨x, (mem_rangeIncl hab).mpr ⟨hcond.2.1, hcond.2.2⟩, by rw [hcond.1]⟩)]
  · rw [if_neg hcond, if_neg (by
      intro hcon
      rw [List.mem_map] at hcon
      obtain ⟨xi, hxi, hceq⟩ := hcon
      have h1 := (mem_rangeIncl hab).mp hxi
      rw [Prod.mk.injEq] at hceq
      exact hcond ⟨hceq.1.symm, by omega⟩)]

theorem getCell_carveCol {g : Grid} {w h : ℕ} (hwf : Wf g w h) {x0 a b : ℕ}
    (hx0 : x0 < w) (hab : a ≤ b) (hb : b < h) (y x : ℕ) :
    getCell ((rangeIncl a b).foldl (fun g' yi => setCell g' yi x0 FLOOR) g) y x =
      if x = x0 ∧ a ≤ y ∧ y ≤ b then FLOOR else getCell g y x := by
  rw [colFold_eq_posFold]
  rw [getCell_setFloor_fold _ (by
    intro c hc
    rw [List.mem_map] at hc
    obtain ⟨yi, hyi, hceq⟩ := hc
    have := (mem_rangeIncl hab).mp hyi
    rw [← hceq]
    exact ⟨by omega, hx0⟩) hwf y x]
  by_cases hcond : x = x0 ∧ a ≤ y ∧ y ≤ b
  · rw [if_pos hcond, if_pos (by
      rw [List.mem_map]
      exact ⟨y, (mem_rangeIncl hab).mpr ⟨hcond.2.1, hcond.2.2⟩, by rw [hcond.1]⟩)]
  · rw [if_neg hcond, if_neg (by
      intro hcon
      rw [List.mem_map] at hcon
      obtain ⟨yi, hyi, hceq⟩ := hcon
      have h1 := (mem_rangeIncl hab).mp hyi
      rw [Prod.mk.injEq] at hceq
      exact hcond ⟨hceq.2.symm, by omega⟩)]

theorem carveRow_wf {g : Grid} {w h : ℕ} (hwf : Wf g w h) (y0 : ℕ) (l : List ℕ) :
    Wf (l.foldl (fun g' xi => setCell g' y0 xi FLOOR) g) w h := by
  rw [rowFold_eq_posFold]
  exact setFloor_fold_wf _ hwf

theorem carveCol_wf {g : Grid} {w h : ℕ} (hwf : Wf g w h) (x0 : ℕ) (l : List ℕ) :
    Wf (l.foldl (fun g' yi => setCell g' yi x0 FLOOR) g) w h := by
  rw [colFold_eq_posFold]
  exact setFloor_fold_wf _ hwf

theorem carveBranch_wf {g : Grid} {w h : ℕ} (hwf : Wf g w h) (pq : Pos × Pos)
    (br : Bool) : Wf (carveBranch g pq br) w h := by
  unfold carveBranch
  cases br
  · exact carveRow_wf (carveCol_wf hwf _ _) _ _
  · exact carveCol_wf (carveRow_wf hwf _ _) _ _

/-- Reading any cell of a carved grid: FLOOR on the two segments, the previous
value elsewhere. -/
theorem carveBranch_getCell {g : Grid} {w h : ℕ} (hwf : Wf g w h) {pq : Pos × Pos}
    (hb1 : pq.1.1 < h) (hb2 : pq.1.2 < w) (hb3 : pq.2.1 < h) (hb4 : pq.2.2 < w)
    (br : Bool) (y x : ℕ) :
    getCell (carveBranch g pq br) y x =
      if onCorridor pq br y x then FLOOR else getCell g y x := by
  unfold carveBranch onCorridor
  cases br
  · simp only [Bool.false_eq_true, if_false]
    have hwf1 : Wf ((rangeIncl (min pq.1.1 pq.2.1) (max pq.1.1 pq.2.1)).foldl
        (fun g' yi => setCell g' yi pq.1.2 FLOOR) g) w h := carveCol_wf hwf _ _
    rw [getCell_carveRow hwf1 hb3 (min_le_max) (by omega) y x,
      getCell_carveCol hwf hb2 (min_le_max) (by omega) y x]
    by_cases hrow : y = pq.2.1 ∧ min pq.1.2 pq.2.2 ≤ x ∧ x ≤ max pq.1.2 pq.2.2
    · rw [if_pos hrow, if_pos (Or.inr hrow)]
    · rw [if_neg hrow]
      by_cases hcol : x = pq.1.2 ∧ min pq.1.1 pq.2.1 ≤ y ∧ y ≤ max pq.1.1 pq.2.1
      · rw [if_pos hcol, if_pos (Or.inl hcol)]
      · rw [if_neg hcol, if_neg (by tauto)]
  · simp only [if_true]
    have hwf1 : Wf ((rangeIncl (min pq.1.2 pq.2.2) (max pq.1.2 pq.2.2)).foldl
        (fun g' xi => setCell g' pq.1.1 xi FLOOR) g) w h := carveRow_wf hwf _ _
    rw [getCell_carveCol hwf1 hb4 (min_le_max) (by omega) y x,
      getCell_carveRow hwf hb1 (min_le_max) (by omega) y x]
    by_cases hcol : x = pq.2.2 ∧ min pq.1.1 pq.2.1 ≤ y ∧ y ≤ max pq.1.1 pq.2.1
    · rw [if_pos hcol, if_pos (Or.inr hcol)]
    · rw [if_neg hcol]
      by_cases hrow : y = pq.1.1 ∧ min pq.1.2 pq.2.2 ≤ x ∧ x ≤ max pq.1.2 pq.2.2
      · rw [if_pos hrow, if_pos (Or.inl hrow)]
      · rw [if_neg hrow, if_neg (by tauto)]

/-- Carving never turns a FLOOR cell into WALL. -/
theorem carveBranch_floor_mono (g : Grid) (pq : Pos × Pos) (br : Bool) (y x : ℕ)
    (hfl : getCell g y x = FLOOR) : getCell (carveBranch g pq br) y x = FLOOR := by
  unfold carveBranch
  cases br
  · simp only [Bool.false_eq_true, if_false]
    rw [colFold_eq_posFold, rowFold_eq_posFold]
    exact getCell_setFloor_fold_floor _ y x (getCell_setFloor_fold_floor _ y x hfl)
  · simp only [if_true]
    rw [rowFold_eq_posFold, colFold_eq_posFold]
    exact getCell_setFloor_fold_floor _ y x (getCell_setFloor_fold_floor _ y x hfl)

/-- Claim C10: `carve_corridor` modifies only the cells on its two carved
segments (per chosen branch), setting them to FLOOR; every other cell is
returned unchanged, and no cell ever changes from FLOOR to WALL.  The grid
component of `carve_corridor` is `carveBranch` at the scanned best pair with
the branch decided by the drawn random value. -/
theorem claim_C10 {g : Grid} {w h : ℕ} (hwf : Wf g w h) (A B : List Pos)
    (hA : A ≠ []) (hB : B ≠ [])
    (hAb : ∀ c ∈ A, c.1 < h ∧ c.2 < w) (hBb : ∀ c ∈ B, c.1 < h ∧ c.2 < w) :
    (∀ rng : RNG, carve_corridor g A B rng =
      (carveBranch g (scanBest A B).2 (decide ((randNext rng).1 < (1 : ℚ)/2)),
        (randNext rng).2)) ∧
    (∀ (br : Bool) (y x : ℕ),
      getCell (carveBranch g (scanBest A B).2 br) y x =
        if onCorridor (scanBest A B).2 br y x then FLOOR else getCell g y x) ∧
    (∀ (br : Bool) (y x : ℕ), getCell g y x = FLOOR →
      getCell (carveBranch g (scanBest A B).2 br) y x = FLOOR) := by
  obtain ⟨hmemA, hmemB⟩ := scanBest_mem A B hA hB
  obtain ⟨hb1, hb2⟩ := hAb _ hmemA
  obtain ⟨hb3, hb4⟩ := hBb _ hmemB
  refine ⟨fun rng => rfl, ?_, ?_⟩
  · intro br y x
    exact carveBranch_getCell hwf hb1 hb2 hb3 hb4 br y x
  · intro br y x hfl
    exact carveBranch_floor_mono g (scanBest A B).2 br y x hfl

theorem claim_C10_witness :
    Wf [[1, 1, 1], [1, 0, 1], [1, 0, 1]] 3 3 ∧
    ([((1 : ℕ), (1 : ℕ))] ≠ ([] : List Pos)) ∧
    ([((2 : ℕ), (1 : ℕ))] ≠ ([] : List Pos)) ∧
    (∀ c ∈ [((1 : ℕ), (1 : ℕ))], c.1 < 3 ∧ c.2 < 3) ∧
    (∀ c ∈ [((2 : ℕ), (1 : ℕ))], c.1 < 3 ∧ c.2 < 3) ∧
    ((∀ rng : RNG, carve_corridor [[1, 1, 1], [1, 0, 1], [1, 0, 1]] [(1, 1)] [(2, 1)] rng =
        (carveBranch [[1, 1, 1], [1, 0, 1], [1, 0, 1]] (scanBest [(1, 1)] [(2, 1)]).2
          (decide ((randNext rng).1 < (1 : ℚ)/2)), (randNext rng).2)) ∧
      (∀ (br : Bool) (y x : ℕ),
        getCell (carveBranch [[1, 1, 1], [1, 0, 1], [1, 0, 1]] (scanBest [(1, 1)] [(2, 1)]).2 br) y x =
          if onCorridor (scanBest [(1, 1)] [(2, 1)]).2 br y x then FLOOR
          else getCell [[1, 1, 1], [1, 0, 1], [1, 0, 1]] y x) ∧
      (∀ (br : Bool) (y x : ℕ), getCell [[1, 1, 1], [1, 0, 1], [1, 0, 1]] y x = FLOOR →
        getCell (carveBranch [[1, 1, 1], [1, 0, 1], [1, 0, 1]] (scanBest [(1, 1)] [(2, 1)]).2 br) y x = FLOOR)) :=
  ⟨by decide, by decide, by decide, by decide, by decide,
    @claim_C10 [[1, 1, 1], [1, 0, 1], [1, 0, 1]] 3 3 (by decide) [(1, 1)] [(2, 1)]
      (by decide) (by decide) (by decide) (by decide)⟩

/-! ## 8-connectivity of FLOOR cells -/

/-- Two distinct cells are 8-adjacent when they differ by at most one in each
coordinate (the 3x3 structuring element of the Region Finder). -/
def adj (p q : Pos) : Prop :=
  p ≠ q ∧ ((p.1 : ℤ) - (q.1 : ℤ)).natAbs ≤ 1 ∧ ((p.2 : ℤ) - (q.2 : ℤ)).natAbs ≤ 1

instance (p q : Pos) : Decidable (adj p q) := by
  unfold adj; infer_instance

/-- `p` is an in-bounds FLOOR cell of `g`. -/
def floorP (g : Grid) (p : Pos) : Prop :=
  p.1 < g.length ∧ p.2 < (g.getD p.1 []).length ∧ getCell g p.1 p.2 = FLOOR

instance (g : Grid) (p : Pos) : Decidable (floorP g p) := by
  unfold floorP; infer_instance

/-- One connectivity step: both endpoints are FLOOR cells and they are
8-adjacent. -/
def stepRel (g : Grid) (p q : Pos) : Prop := floorP g p ∧ floorP g q ∧ adj p q

/-- `q` is reachable from `p` through a chain of 8-adjacent FLOOR cells. -/
def reach (g : Grid) : Pos → Pos → Prop := Relation.ReflTransGen (stepRel g)

/-- `R` is one maximal 8-connected component of FLOOR cells of `g` — the
contract of the Region Finder for a single returned region (modelled from the
spec: `scipy.ndimage.label` with the all-ones 3x3 structure partitions the
FLOOR cells into maximal 8-connected components). -/
def isComp (g : Grid) (R : Set Pos) : Prop :=
  ∃ c, floorP g c ∧ R = {d | reach g c d}

/-- A region handed to the Corridor Carver, as a coordinate list: some member
cell is FLOOR and the list holds exactly the cells reachable from it
(modelled from the spec: one region returned by the Region Finder). -/
def isRegionL (g : Grid) (R : List Pos) : Prop :=
  ∃ c ∈ R, floorP g c ∧ ∀ d, (d ∈ R ↔ reach g c d)

theorem stepRel_symm (g : Grid) : Symmetric (stepRel g) := by
  intro p q hpq
  obtain ⟨h1, h2, h3, h4, h5⟩ := hpq
  exact ⟨h2, h1, h3.symm, by omega, by omega⟩

theorem reach_symm {g : Grid} {p q : Pos} (hr : reach g p q) : reach g q p :=
  Relation.ReflTransGen.symmetric (stepRel_symm g) hr

theorem reach_floor {g : Grid} {p q : Pos} (hr : reach g p q) (hp : floorP g p) :
    floorP g q := by
  induction hr with
  | refl => exact hp
  | tail _ hlast _ => exact hlast.2.1

theorem reach_mono {g g' : Grid} (hm : ∀ p, floorP g p → floorP g' p)
    {p q : Pos} (hr : reach g p q) : reach g' p q := by
  induction hr with
  | refl => exact Relation.ReflTransGen.refl
  | tail _ hlast ih =>
      exact Relation.ReflTransGen.tail ih ⟨hm _ hlast.1, hm _ hlast.2.1, hlast.2.2⟩

theorem comp_eq_of_reach {g : Grid} {a b : Pos} (hr : reach g a b) :
    {d | reach g a d} = {d | reach g b d} := by
  ext d
  simp only [Set.mem_setOf_eq]
  constructor
  · intro had
    exact Relation.ReflTransGen.trans (reach_symm hr) had
  · intro hbd
    exact Relation.ReflTransGen.trans hr hbd

theorem floorP_of_wf {g : Grid} {w h : ℕ} (hwf : Wf g w h) {y x : ℕ}
    (hy : y < h) (hx : x < w) (hfl : getCell g y x = FLOOR) : floorP g (y, x) := by
  refine ⟨by rw [hwf.1]; exact hy, ?_, hfl⟩
  show x < (g.getD y []).length
  rw [rowLen_wf hwf hy]
  exact hx

theorem floorP_bounds {g : Grid} {w h : ℕ} (hwf : Wf g w h) {p : Pos}
    (hfl : floorP g p) : p.1 < h ∧ p.2 < w := by
  obtain ⟨h1, h2, _⟩ := hfl
  have hh : p.1 < h := by rw [← hwf.1]; exact h1
  have := rowLen_wf hwf hh
  exact ⟨hh, by rw [← this]; exact h2⟩

theorem reach_row_aux (g : Grid) (y0 a : ℕ) :
    ∀ n, (∀ xi, a ≤ xi → xi ≤ a + n → floorP g (y0, xi)) →
      reach g (y0, a) (y0, a + n) := by
  intro n
  induction n with
  | zero => intro _; exact Relation.ReflTransGen.refl
  | succ n ih =>
      intro hfl
      refine Relation.ReflTransGen.tail (ih (fun xi h1 h2 => hfl xi h1 (by omega))) ?_
      refine ⟨hfl (a + n) (by omega) (by omega), hfl (a + n + 1) (by omega) (by omega),
        ?_, by omega, by omega⟩
      intro hcon
      rw [Prod.mk.injEq] at hcon
      omega

theorem reach_col_aux (g : Grid) (x0 a : ℕ) :
    ∀ n, (∀ yi, a ≤ yi → yi ≤ a + n → floorP g (yi, x0)) →
      reach g (a, x0) (a + n, x0) := by
  intro n
  induction n with
  | zero => intro _; exact Relation.ReflTransGen.refl
  | succ n ih =>
      intro hfl
      refine Relation.ReflTransGen.tail (ih (fun yi h1 h2 => hfl yi h1 (by omega))) ?_
      refine ⟨hfl (a + n) (by omega) (by omega), hfl (a + n + 1) (by omega) (by omega),
        ?_, by omega, by omega⟩
      intro hcon
      rw [Prod.mk.injEq] at hcon
      omega

theorem reach_row_any (g : Grid) (y0 x1 x2 : ℕ)
    (hfl : ∀ xi, min x1 x2 ≤ xi → xi ≤ max x1 x2 → floorP g (y0, xi)) :
    reach g (y0, x1) (y0, x2) := by
  rcases le_total x1 x2 with hle | hle
  · have hr := reach_row_aux g y0 x1 (x2 - x1) (fun xi h1 h2 => hfl xi (by omega) (by omega))
    have hx : x1 + (x2 - x1) = x2 := by omega
    rw [hx] at hr
    exact hr
  · have hr := reach_row_aux g y0 x2 (x1 - x2) (fun xi h1 h2 => hfl xi (by omega) (by omega))
    have hx : x2 + (x1 - x2) = x1 := by omega
    rw [hx] at hr
    exact reach_symm hr

theorem reach_col_any (g : Grid) (x0 y1 y2 : ℕ)
    (hfl : ∀ yi, min y1 y2 ≤ yi → yi ≤ max y1 y2 → floorP g (yi, x0)) :
    reach g (y1, x0) (y2, x0) := by
  rcases le_total y1 y2 with hle | hle
  · have hr := reach_col_aux g x0 y1 (y2 - y1) (fun yi h1 h2 => hfl yi (by omega) (by omega))
    have hy : y1 + (y2 - y1) = y2 := by omega
    rw [hy] at hr
    exact hr
  · have hr := reach_col_aux g x0 y2 (y1 - y2) (fun yi h1 h2 => hfl yi (by omega) (by omega))
    have hy : y2 + (y1 - y2) = y1 := by omega
    rw [hy] at hr
    exact reach_symm hr

/-- Carving preserves FLOOR cells (and the grid shape). -/
theorem floorP_carveBranch {g : Grid} {w h : ℕ} (hwf : Wf g w h) (pq : Pos × Pos)
    (br : Bool) {p : Pos} (hfl : floorP g p) : floorP (carveBranch g pq br) p := by
  obtain ⟨hb1, hb2⟩ := floorP_bounds hwf hfl
  exact floorP_of_wf (carveBranch_wf hwf pq br) hb1 hb2
    (carveBranch_floor_mono g pq br p.1 p.2 (by
      obtain ⟨y, x⟩ := p
      exact hfl.2.2))

/-- The freshly carved corridor connects the two chosen endpoints. -/
theorem carve_connects {g : Grid} {w h : ℕ} (hwf : Wf g w h) (pq : Pos × Pos)
    (hb1 : pq.1.1 < h) (hb2 : pq.1.2 < w) (hb3 : pq.2.1 < h) (hb4 : pq.2.2 < w)
    (br : Bool) : reach (carveBranch g pq br) pq.1 pq.2 := by
  have hwf' : Wf (carveBranch g pq br) w h := carveBranch_wf hwf pq br
  have hfloor : ∀ y x, y < h → x < w → onCorridor pq br y x →
      floorP (carveBranch g pq br) (y, x) := by
    intro y x hy hx hon
    refine floorP_of_wf hwf' hy hx ?_
    rw [carveBranch_getCell hwf hb1 hb2 hb3 hb4 br y x, if_pos hon]
  cases br
  · have hstep1 : reach (carveBranch g pq false) (pq.1.1, pq.1.2) (pq.2.1, pq.1.2) := by
      refine reach_col_any _ pq.1.2 pq.1.1 pq.2.1 ?_
      intro yi h1 h2
      refine hfloor yi pq.1.2 (by omega) hb2 ?_
      unfold onCorridor
      simp only [Bool.false_eq_true, if_false]
      exact Or.inl ⟨by trivial, h1, h2⟩
    have hstep2 : reach (carveBranch g pq false) (pq.2.1, pq.1.2) (pq.2.1, pq.2.2) := by
      refine reach_row_any _ pq.2.1 pq.1.2 pq.2.2 ?_
      intro xi h1 h2
      refine hfloor pq.2.1 xi hb3 (by omega) ?_
      unfold onCorridor
      simp only [Bool.false_eq_true, if_false]
      exact Or.inr ⟨by trivial, h1, h2⟩
    exact Relation.ReflTransGen.trans hstep1 hstep2
  · have hstep1 : reach (carveBranch g pq true) (pq.1.1, pq.1.2) (pq.1.1, pq.2.2) := by
      refine reach_row_any _ pq.1.1 pq.1.2 pq.2.2 ?_
      intro xi h1 h2
      refine hfloor pq.1.1 xi hb1 (by omega) ?_
      unfold onCorridor
      simp only [if_true]
      exact Or.inl ⟨by trivial, h1, h2⟩
    have hstep2 : reach (carveBranch g pq true) (pq.1.1, pq.2.2) (pq.2.1, pq.2.2) := by
      refine reach_col_any _ pq.2.2 pq.1.1 pq.2.1 ?_
      intro yi h1 h2
      refine hfloor yi pq.2.2 (by omega) hb4 ?_
      unfold onCorridor
      simp only [if_true]
      exact Or.inr ⟨by trivial, h1, h2⟩
    exact Relation.ReflTransGen.trans hstep1 hstep2

/-- Claim C4: carving a corridor between two distinct non-empty 8-connected
FLOOR regions, under either random branch choice, leaves exactly one
8-connected FLOOR component (one region of a re-run of the Region Finder)
containing all cells of both original regions. -/
theorem claim_C4 {g : Grid} {w h : ℕ} (hwf : Wf g w h) (A B : List Pos)
    (hA : A ≠ []) (hB : B ≠ []) (hregA : isRegionL g A) (hregB : isRegionL g B)
    (hdisj : ∀ p ∈ A, p ∉ B) (br : Bool) :
    ∃! R : Set Pos, isComp (carveBranch g (scanBest A B).2 br) R ∧
      (∀ c ∈ A, c ∈ R) ∧ (∀ c ∈ B, c ∈ R) := by
  obtain ⟨cA, hcAmem, hcAfl, hcA⟩ := hregA
  obtain ⟨cB, hcBmem, hcBfl, hcB⟩ := hregB
  obtain ⟨hpA, hqB⟩ := scanBest_mem A B hA hB
  have hmono : ∀ p, floorP g p → floorP (carveBranch g (scanBest A B).2 br) p :=
    fun p hp => floorP_carveBranch hwf (scanBest A B).2 br hp
  have hflA : ∀ c ∈ A, floorP g c := fun c hc => reach_floor ((hcA c).mp hc) hcAfl
  have hflB : ∀ c ∈ B, floorP g c := fun c hc => reach_floor ((hcB c).mp hc) hcBfl
  have hreachA : ∀ c ∈ A, ∀ c' ∈ A, reach g c c' := fun c hc c' hc' =>
    Relation.ReflTransGen.trans (reach_symm ((hcA c).mp hc)) ((hcA c').mp hc')
  have hreachB : ∀ c ∈ B, ∀ c' ∈ B, reach g c c' := fun c hc c' hc' =>
    Relation.ReflTransGen.trans (reach_symm ((hcB c).mp hc)) ((hcB c').mp hc')
  have hbp := floorP_bounds hwf (hflA _ hpA)
  have hbq := floorP_bounds hwf (hflB _ hqB)
  have hconn : reach (carveBranch g (scanBest A B).2 br) (scanBest A B).2.1 (scanBest A B).2.2 :=
    carve_connects hwf (scanBest A B).2 hbp.1 hbp.2 hbq.1 hbq.2 br
  refine ⟨{d | reach (carveBranch g (scanBest A B).2 br) (scanBest A B).2.1 d},
    ⟨⟨(scanBest A B).2.1, hmono _ (hflA _ hpA), rfl⟩, ?_, ?_⟩, ?_⟩
  · intro c hc
    exact reach_mono hmono (hreachA _ hpA _ hc)
  · intro c hc
    exact Relation.ReflTransGen.trans hconn (reach_mono hmono (hreachB _ hqB _ hc))
  · rintro R' ⟨⟨c', hcfl', rfl⟩, hRA, hRB⟩
    exact comp_eq_of_reach (hRA _ hpA)

theorem isRegionL_singleton {g : Grid} {c : Pos} (hfl : floorP g c)
    (hiso : ∀ d, stepRel g c d → False) : isRegionL g [c] := by
  refine ⟨c, List.mem_singleton.mpr rfl, hfl, ?_⟩
  intro d
  constructor
  · intro hd
    rw [List.mem_singleton.mp hd]
    exact Relation.ReflTransGen.refl
  · intro hr
    rcases Relation.ReflTransGen.cases_head hr with heq | ⟨e, he, _⟩
    · rw [List.mem_singleton]
      exact heq.symm
    · exact absurd he (fun hcon => hiso e hcon)

theorem no_step_of_neighbors (g : Grid) (c : Pos)
    (hnb : ∀ d, adj c d → ¬ floorP g d) : ∀ d, stepRel g c d → False :=
  fun d hd => hnb d hd.2.2 hd.2.1

theorem witness_iso_left : ∀ d, stepRel [[0, 1, 0]] ((0 : ℕ), (0 : ℕ)) d → False := by
  refine no_step_of_neighbors _ _ ?_
  intro d hadj hfl
  obtain ⟨y, x⟩ := d
  obtain ⟨hy, hx, hcell⟩ := hfl
  have hy1 : y < 1 := hy
  have hy0 : y = 0 := by omega
  subst hy0
  have hx3 : x < 3 := hx
  obtain ⟨hne, hay, hax⟩ := hadj
  interval_cases x
  · exact hne rfl
  · exact absurd hcell (by decide)
  · exact absurd hax (by decide)

theorem witness_iso_right : ∀ d, stepRel [[0, 1, 0]] ((0 : ℕ), (2 : ℕ)) d → False := by
  refine no_step_of_neighbors _ _ ?_
  intro d hadj hfl
  obtain ⟨y, x⟩ := d
  obtain ⟨hy, hx, hcell⟩ := hfl
  have hy1 : y < 1 := hy
  have hy0 : y = 0 := by omega
  subst hy0
  have hx3 : x < 3 := hx
  obtain ⟨hne, hay, hax⟩ := hadj
  interval_cases x
  · exact absurd hax (by decide)
  · exact absurd hcell (by decide)
  · exact hne rfl

theorem claim_C4_witness :
    Wf [[0, 1, 0]] 3 1 ∧
    ([((0 : ℕ), (0 : ℕ))] ≠ ([] : List Pos)) ∧
    ([((0 : ℕ), (2 : ℕ))] ≠ ([] : List Pos)) ∧
    isRegionL [[0, 1, 0]] [(0, 0)] ∧
    isRegionL [[0, 1, 0]] [(0, 2)] ∧
    (∀ p ∈ [((0 : ℕ), (0 : ℕ))], p ∉ [((0 : ℕ), (2 : ℕ))]) ∧
    (∃! R : Set Pos,
      isComp (carveBranch [[0, 1, 0]] (scanBest [(0, 0)] [(0, 2)]).2 true) R ∧
        (∀ c ∈ [((0 : ℕ), (0 : ℕ))], c ∈ R) ∧
        (∀ c ∈ [((0 : ℕ), (2 : ℕ))], c ∈ R)) := by
  have hA : isRegionL [[0, 1, 0]] [(0, 0)] :=
    isRegionL_singleton (by decide) witness_iso_left
  have hB : isRegionL [[0, 1, 0]] [(0, 2)] :=
    isRegionL_singleton (by decide) witness_iso_right
  exact ⟨by decide, by decide, by decide, hA, hB, by decide,
    @claim_C4 [[0, 1, 0]] 3 1 (by decide) [(0, 0)] [(0, 2)] (by decide) (by decide)
      hA hB (by decide) true⟩

/-! ## The Region Finder -/

/-- The in-bounds FLOOR cells 8-adjacent to `c`, with per-row bounds. -/
def floorNeighbors (g : Grid) (c : Pos) : List Pos :=
  neighborOffsets.filterMap (fun d =>
    if 0 ≤ (c.1 : ℤ) + d.2 ∧ (c.1 : ℤ) + d.2 < (g.length : ℤ) ∧
        0 ≤ (c.2 : ℤ) + d.1 ∧
        (c.2 : ℤ) + d.1 < ((g.getD ((c.1 : ℤ) + d.2).toNat []).length : ℤ) ∧
        getCell g ((c.1 : ℤ) + d.2).toNat ((c.2 : ℤ) + d.1).toNat = FLOOR
    then some (((c.1 : ℤ) + d.2).toNat, ((c.2 : ℤ) + d.1).toNat) else none)

/-- Fuelled breadth-first flood fill collecting one component. -/
def bfs (g : Grid) : ℕ → List Pos → List Pos → List Pos
  | 0, _, visited => visited
  | _ + 1, [], visited => visited
  | fuel + 1, c :: rest, visited =>
      if c ∈ visited then bfs g fuel rest visited
      else bfs g fuel (rest ++ floorNeighbors g c) (visited ++ [c])

/-- Enough fuel to exhaust any frontier the grid can produce. -/
def regionFuel (g : Grid) : ℕ := 9 * (g.length * (g.getD 0 []).length) + 9

/-- All FLOOR cells of the grid in row-major order (the order `np.argwhere`
reports labelled cells in). -/
def allFloorCells (g : Grid) : List Pos :=
  (List.range g.length).flatMap (fun y =>
    (List.range (g.getD y []).length).filterMap (fun x =>
      if getCell g y x = FLOOR then some (y, x) else none))

/-- Modelled from the spec: `flood_fill_regions` labels 8-connected FLOOR
components via `scipy.ndimage.label` with an all-ones 3x3 structure — library
code not in the script — and returns each component's cells as one region.
Here a breadth-first flood fill collects each component once, seeded in
row-major order. -/
def flood_fill_regions (g : Grid) : List (List Pos) :=
  ((allFloorCells g).foldl (fun st c =>
    if c ∈ st.2 then st
    else (st.1 ++ [bfs g (regionFuel g) [c] []], st.2 ++ bfs g (regionFuel g) [c] []))
    ([], [])).1

/-- `largest_region(regions)` from the source: `max(regions, key=len)` (the
first maximum) on a non-empty list, `[]` otherwise. -/
def largest_region (regions : List (List Pos)) : List Pos :=
  match regions with
  | [] => []
  | r :: rs => rs.foldl (fun best r2 => if r2.length > best.length then r2 else best) r

theorem floorNeighbors_floor (g : Grid) (c : Pos) :
    ∀ d ∈ floorNeighbors g c, floorP g d := by
  intro d hd
  unfold floorNeighbors at hd
  rw [List.mem_filterMap] at hd
  obtain ⟨off, _, heq⟩ := hd
  split_ifs at heq with hc
  · obtain ⟨h1, h2, h3, h4, h5⟩ := hc
    injection heq with heq
    subst heq
    refine ⟨?_, ?_, h5⟩
    · show ((c.1 : ℤ) + off.2).toNat < g.length
      omega
    · show ((c.2 : ℤ) + off.1).toNat < (g.getD ((c.1 : ℤ) + off.2).toNat []).length
      omega

theorem bfs_floor (g : Grid) : ∀ (fuel : ℕ) (frontier visited : List Pos),
    (∀ c ∈ frontier, floorP g c) → (∀ c ∈ visited, floorP g c) →
    ∀ c ∈ bfs g fuel frontier visited, floorP g c := by
  intro fuel
  induction fuel with
  | zero => intro fr vis _ hv c hc; exact hv c hc
  | succ n ih =>
      intro fr vis hf hv c hc
      cases fr with
      | nil => exact hv c hc
      | cons c0 rest =>
          simp only [bfs] at hc
          split_ifs at hc with hmem
          · exact ih rest vis (fun d hd => hf d (List.mem_cons_of_mem _ hd)) hv c hc
          · refine ih (rest ++ floorNeighbors g c0) (vis ++ [c0]) ?_ ?_ c hc
            · intro d hd
              rcases List.mem_append.mp hd with h1 | h1
              · exact hf d (List.mem_cons_of_mem _ h1)
              · exact floorNeighbors_floor g c0 d h1
            · intro d hd
              rcases List.mem_append.mp hd with h1 | h1
              · exact hv d h1
              · rw [List.mem_singleton.mp h1]
                exact hf c0 (List.mem_cons_self c0 rest)

theorem bfs_visited_sub (g : Grid) : ∀ (fuel : ℕ) (frontier visited : List Pos),
    ∀ c ∈ visited, c ∈ bfs g fuel frontier visited := by
  intro fuel
  induction fuel with
  | zero => intro fr vis c hc; exact hc
  | succ n ih =>
      intro fr vis c hc
      cases fr with
      | nil => exact hc
      | cons c0 rest =>
          simp only [bfs]
          split_ifs with hmem
          · exact ih rest vis c hc
          · exact ih _ _ c (List.mem_append_left _ hc)

theorem bfs_seed_mem (g : Grid) (c : Pos) (n : ℕ) : c ∈ bfs g (n + 1) [c] [] := by
  simp only [bfs]
  rw [if_neg (List.not_mem_nil c)]
  exact bfs_visited_sub g n _ _ c (by simp)

theorem allFloorCells_floor (g : Grid) : ∀ c ∈ allFloorCells g, floorP g c := by
  intro c hc
  unfold allFloorCells at hc
  rw [List.mem_flatMap] at hc
  obtain ⟨y, hy, hc⟩ := hc
  rw [List.mem_filterMap] at hc
  obtain ⟨x, hx, heq⟩ := hc
  split_ifs at heq with hfl
  injection heq with heq
  subst heq
  exact ⟨List.mem_range.mp hy, List.mem_range.mp hx, hfl⟩

theorem flood_fill_regions_spec (g : Grid) :
    ∀ R ∈ flood_fill_regions g, R ≠ [] ∧ ∀ c ∈ R, floorP g c := by
  have main : ∀ (l : List Pos) (st : List (List Pos) × List Pos),
      (∀ c ∈ l, floorP g c) →
      (∀ R ∈ st.1, R ≠ [] ∧ ∀ c ∈ R, floorP g c) →
      ∀ R ∈ (l.foldl (fun st c =>
        if c ∈ st.2 then st
        else (st.1 ++ [bfs g (regionFuel g) [c] []],
          st.2 ++ bfs g (regionFuel g) [c] [])) st).1,
        R ≠ [] ∧ ∀ c ∈ R, floorP g c := by
    intro l
    induction l with
    | nil => intro st _ hst R hR; exact hst R hR
    | cons c l ih =>
        intro st hl hst
        rw [List.foldl_cons]
        refine ih _ (fun d hd => hl d (List.mem_cons_of_mem _ hd)) ?_
        split_ifs with hmem
        · exact hst
        · intro R hR
          rcases List.mem_append.mp hR with h1 | h1
          · exact hst R h1
          · rw [List.mem_singleton.mp h1]
            have hfuel : ∃ m, regionFuel g = m + 1 :=
              ⟨9 * (g.length * (g.getD 0 []).length) + 8, by unfold regionFuel; omega⟩
            obtain ⟨m, hm⟩ := hfuel
            constructor
            · intro hcon
              have : c ∈ bfs g (regionFuel g) [c] [] := by
                rw [hm]
                exact bfs_seed_mem g c m
              rw [hcon] at this
              exact List.not_mem_nil c this
            · refine bfs_floor g _ _ _ ?_ ?_
              · intro d hd
                rw [List.mem_singleton.mp hd]
                exact hl c (List.mem_cons_self c l)
              · intro d hd
                exact absurd hd (List.not_mem_nil d)
  intro R hR
  exact main (allFloorCells g) ([], []) (allFloorCells_floor g)
    (fun R' hR' => absurd hR' (List.not_mem_nil R')) R hR

theorem largest_region_mem (regions : List (List Pos)) (hne : regions ≠ []) :
    largest_region regions ∈ regions := by
  obtain ⟨r, rs, rfl⟩ := List.exists_cons_of_ne_nil hne
  unfold largest_region
  have main : ∀ (l : List (List Pos)) (init : List Pos), init ∈ r :: rs →
      (∀ z ∈ l, z ∈ r :: rs) →
      l.foldl (fun best r2 => if r2.length > best.length then r2 else best) init ∈ r :: rs := by
    intro l
    induction l with
    | nil => intro init h1 _; exact h1
    | cons a l ih =>
        intro init h1 h2
        rw [List.foldl_cons]
        refine ih _ ?_ (fun z hz => h2 z (List.mem_cons_of_mem _ hz))
        split_ifs
        · exact h2 a (List.mem_cons_self a l)
        · exact h1
  exact main rs r (List.mem_cons_self r rs) (fun z hz => List.mem_cons_of_mem _ hz)

/-! ## The full pipeline -/

/-- The parameter record handed to `generate_cave` (all counts are Python
ints; the fill probability is a float, modelled as a rational). -/
structure Params where
  width : ℤ
  height : ℤ
  fill_prob : ℚ
  birth : ℤ
  survive : ℤ
  ca_steps : ℤ
  min_region : ℤ
  smoothing_passes : ℤ

/-- `np.zeros((height, width))`. -/
def zerosGrid (h w : ℕ) : Grid := List.replicate h (List.replicate w 0)

/-- The seeding double loop of `generate_cave`: border cells are set to WALL
unconditionally; each interior cell consumes one random draw and becomes WALL
exactly when the draw is below `fill_prob`. -/
def seedGrid (w h : ℕ) (fill_p : ℚ) (rng : RNG) : Grid × RNG :=
  (List.range h).foldl (fun gr y =>
    (List.range w).foldl (fun gr x =>
      if is_edge x y w h then (setCell gr.1 y x WALL, gr.2)
      else
        (setCell gr.1 y x (if (randNext gr.2).1 < fill_p then WALL else FLOOR),
          (randNext gr.2).2))
      gr)
    (zerosGrid h w, rng)

/-- The region-connection loop of `generate_cave`: when any regions exist,
carve a corridor from the main (largest) region to every region that has at
least `min_region` cells and is not the main region itself. -/
def carvePhase (g : Grid) (rng : RNG) (regions : List (List Pos)) (min_region : ℤ) :
    Grid × RNG :=
  if regions.isEmpty then (g, rng)
  else
    let mainR := largest_region regions
    regions.foldl (fun gr region =>
      if (region.length : ℤ) ≥ min_region ∧ region ≠ mainR then
        carve_corridor gr.1 mainR region gr.2
      else gr) (g, rng)

/-- `generate_cave(params)` from the source: seed, run `ca_steps` automaton
steps, connect regions, run `smoothing_passes` micro-smoothing passes.  The
only failing input is a negative dimension, on which `np.zeros` raises
(`none`); Python's `range` of a negative count is empty, hence `toNat`. -/
def generate_cave (p : Params) (rng : RNG) : Option Grid :=
  if p.width < 0 ∨ p.height < 0 then none
  else
    let w := p.width.toNat
    let h := p.height.toNat
    let seeded := seedGrid w h p.fill_prob rng
    let gca := (fun g => caStep g w h p.birth p.survive)^[p.ca_steps.toNat] seeded.1
    let carved := carvePhase gca seeded.2 (flood_fill_regions gca) p.min_region
    some ((fun g => micro_smooth g w h)^[p.smoothing_passes.toNat] carved.1)

/-- The successive grids an iterated phase produces (one entry per
iteration). -/
def iterTrace (f : Grid → Grid) : ℕ → Grid → List Grid
  | 0, _ => []
  | n + 1, g => f g :: iterTrace f n (f g)

/-- The grid after each iteration of the region-connection loop. -/
def carveStates (g : Grid) (rng : RNG) (regions : List (List Pos)) (min_region : ℤ) :
    List Grid :=
  if regions.isEmpty then []
  else
    let mainR := largest_region regions
    ((regions.scanl (fun gr region =>
      if (region.length : ℤ) ≥ min_region ∧ region ≠ mainR then
        carve_corridor gr.1 mainR region gr.2
      else gr) (g, rng)).tail).map Prod.fst

/-- Every grid state `generate_cave` reaches after initial seeding: the seeded
grid, the grid after each automaton step, after each iteration of the
corridor loop, and after each micro-smoothing pass. -/
def caveTrace (p : Params) (rng : RNG) : List Grid :=
  let w := p.width.toNat
  let h := p.height.toNat
  let seeded := seedGrid w h p.fill_prob rng
  let caSt := iterTrace (fun g => caStep g w h p.birth p.survive) p.ca_steps.toNat seeded.1
  let gca := caSt.getLastD seeded.1
  let carved := carvePhase gca seeded.2 (flood_fill_regions gca) p.min_region
  seeded.1 :: caSt ++
    carveStates gca seeded.2 (flood_fill_regions gca) p.min_region ++
    iterTrace (fun g => micro_smooth g w h) p.smoothing_passes.toNat carved.1

/-- All border cells of the `h`-by-`w` grid are WALL. -/
def BorderWall (g : Grid) (w h : ℕ) : Prop :=
  ∀ y, y < h → ∀ x, x < w → (y = 0 ∨ y = h - 1 ∨ x = 0 ∨ x = w - 1) →
    getCell g y x = WALL

instance (g : Grid) (w h : ℕ) : Decidable (BorderWall g w h) := by
  unfold BorderWall; infer_instance

/-- A fold of single-cell writes whose written values may depend on the
threaded random state: if every value written at `c` satisfies `P c`, every
visited cell of the result satisfies `P`. -/
theorem writes_fold_pred {w h : ℕ} (P : Pos → ℕ → Prop)
    (step : (Grid × RNG) → Pos → (Grid × RNG))
    (hstep : ∀ gr c, ∃ v, (step gr c).1 = setCell gr.1 c.1 c.2 v ∧ P c v) :
    ∀ (L : List Pos) (gr : Grid × RNG), Wf gr.1 w h →
      (∀ c ∈ L, c.1 < h ∧ c.2 < w) →
      Wf (L.foldl step gr).1 w h ∧
        ∀ c ∈ L, P c (getCell (L.foldl step gr).1 c.1 c.2) := by
  intro L
  induction L using List.reverseRecOn with
  | nil =>
      intro gr hwf _
      exact ⟨hwf, by simp⟩
  | append_singleton L c ih =>
      intro gr hwf hb
      rw [List.foldl_append, List.foldl_cons, List.foldl_nil]
      obtain ⟨hwf', hP⟩ := ih gr hwf (fun d hd => hb d (List.mem_append_left _ hd))
      obtain ⟨v, hv, hPv⟩ := hstep (L.foldl step gr) c
      have hbc := hb c (List.mem_append_right _ (List.mem_singleton.mpr rfl))
      constructor
      · rw [hv]
        exact setCell_wf hwf' c.1 c.2 v
      · intro d hd
        rcases List.mem_append.mp hd with h1 | h1
        · by_cases hdc : (d.1, d.2) = (c.1, c.2)
          · have hdc' : d = c := by
              obtain ⟨dy, dx⟩ := d
              obtain ⟨cy, cx⟩ := c
              exact hdc
            subst hdc'
            rw [hv, getCell_setCell_self hwf' hbc.1 hbc.2 v]
            exact hPv
          · rw [hv, getCell_setCell_ne (L.foldl step gr).1 v hdc]
            exact hP d h1
        · have hdc' : d = c := List.mem_singleton.mp h1
          subst hdc'
          rw [hv, getCell_setCell_self hwf' hbc.1 hbc.2 v]
          exact hPv

/-- Row-major list of all cell positions. -/
def posList (w h : ℕ) : List Pos :=
  (List.range h).flatMap (fun y => (List.range w).map (fun x => (y, x)))

/-- The loop body of the seeding double loop, as a function of the cell. -/
def seedStep (w h : ℕ) (fill_p : ℚ) (gr : Grid × RNG) (c : Pos) : Grid × RNG :=
  if is_edge c.2 c.1 w h then (setCell gr.1 c.1 c.2 WALL, gr.2)
  else
    (setCell gr.1 c.1 c.2 (if (randNext gr.2).1 < fill_p then WALL else FLOOR),
      (randNext gr.2).2)

theorem seedGrid_eq_posFold (w h : ℕ) (fill_p : ℚ) (rng : RNG) :
    seedGrid w h fill_p rng =
      (posList w h).foldl (seedStep w h fill_p) (zerosGrid h w, rng) := by
  unfold seedGrid posList
  rw [foldl_flatMap]
  congr 1
  funext gr y
  rw [List.foldl_map]
  rfl

theorem mem_posList {w h : ℕ} {c : Pos} : c ∈ posList w h ↔ c.1 < h ∧ c.2 < w := by
  unfold posList
  rw [List.mem_flatMap]
  constructor
  · rintro ⟨y, hy, hc⟩
    rw [List.mem_map] at hc
    obtain ⟨x, hx, hceq⟩ := hc
    rw [← hceq]
    exact ⟨List.mem_range.mp hy, List.mem_range.mp hx⟩
  · rintro ⟨h1, h2⟩
    refine ⟨c.1, List.mem_range.mpr h1, ?_⟩
    rw [List.mem_map]
    exact ⟨c.2, List.mem_range.mpr h2, rfl⟩

theorem zerosGrid_wf (h w : ℕ) : Wf (zerosGrid h w) w h := by
  constructor
  · simp [zerosGrid]
  · intro row hrow
    unfold zerosGrid at hrow
    rw [List.eq_of_mem_replicate hrow]
    simp

theorem is_edge_iff (x y w h : ℕ) :
    is_edge x y w h = true ↔ (x = 0 ∨ y = 0 ∨ x = w - 1 ∨ y = h - 1) := by
  unfold is_edge
  simp only [Bool.or_eq_true, beq_iff_eq]
  tauto

/-- Seeding produces a well-formed grid whose border cells are all WALL. -/
theorem seedGrid_spec (w h : ℕ) (fill_p : ℚ) (rng : RNG) :
    Wf (seedGrid w h fill_p rng).1 w h ∧ BorderWall (seedGrid w h fill_p rng).1 w h := by
  rw [seedGrid_eq_posFold]
  have hstep : ∀ gr c, ∃ v, (seedStep w h fill_p gr c).1 = setCell gr.1 c.1 c.2 v ∧
      (is_edge c.2 c.1 w h = true → v = WALL) := by
    intro gr c
    unfold seedStep
    by_cases he : is_edge c.2 c.1 w h
    · exact ⟨WALL, by rw [if_pos he], fun _ => rfl⟩
    · refine ⟨if (randNext gr.2).1 < fill_p then WALL else FLOOR, by rw [if_neg he], ?_⟩
      intro hcon
      exact absurd hcon he
  obtain ⟨hwf, hP⟩ := writes_fold_pred _ _ hstep (posList w h) (zerosGrid h w, rng)
    (zerosGrid_wf h w) (fun c hc => mem_posList.mp hc)
  refine ⟨hwf, ?_⟩
  intro y hy x hx hb
  have := hP (y, x) (mem_posList.mpr ⟨hy, hx⟩)
  exact this ((is_edge_iff x y w h).mpr (by tauto))

/-- A neighbor position counts as WALL whenever any in-bounds reading of it
would land on a border cell (in particular whenever it is out of bounds). -/
theorem wallOrOut_true_of {g : Grid} {w h : ℕ} (hbw : BorderWall g w h)
    (nx ny : ℤ)
    (hcase : (0 ≤ nx ∧ nx < (w : ℤ) ∧ 0 ≤ ny ∧ ny < (h : ℤ)) →
      ny.toNat = 0 ∨ ny.toNat = h - 1 ∨ nx.toNat = 0 ∨ nx.toNat = w - 1) :
    wallOrOut g w h (nx, ny) = true := by
  show (if 0 ≤ nx ∧ nx < (w : ℤ) ∧ 0 ≤ ny ∧ ny < (h : ℤ) then
      decide (getCell g ny.toNat nx.toNat = WALL) else true) = true
  split_ifs with hin
  · rw [decide_eq_true_eq]
    exact hbw ny.toNat (by omega) nx.toNat (by omega) (hcase hin)
  · rfl

/-- On a grid whose border is entirely WALL, every border cell sees at least
five WALL neighbors (out-of-bounds positions and along-border neighbors). -/
theorem border_count_ge_5 {g : Grid} {w h : ℕ} (hbw : BorderWall g w h)
    {y x : ℕ} (hy : y < h) (hx : x < w)
    (hb : y = 0 ∨ y = h - 1 ∨ x = 0 ∨ x = w - 1) :
    5 ≤ count_wall_neighbors g x y w h := by
  rw [cwn_unfold]
  simp only [contrib_split]
  rcases hb with hb | hb | hb | hb
  · have e1 := wallOrOut_true_of hbw ((x : ℤ) + -1) ((y : ℤ) + -1) (by omega)
    have e2 := wallOrOut_true_of hbw ((x : ℤ) + 0) ((y : ℤ) + -1) (by omega)
    have e3 := wallOrOut_true_of hbw ((x : ℤ) + 1) ((y : ℤ) + -1) (by omega)
    have e4 := wallOrOut_true_of hbw ((x : ℤ) + -1) ((y : ℤ) + 0) (by omega)
    have e5 := wallOrOut_true_of hbw ((x : ℤ) + 1) ((y : ℤ) + 0) (by omega)
    simp only [e1, e2, e3, e4, e5, eq_self_iff_true, if_true]
    split_ifs <;> omega
  · have e1 := wallOrOut_true_of hbw ((x : ℤ) + -1) ((y : ℤ) + 1) (by omega)
    have e2 := wallOrOut_true_of hbw ((x : ℤ) + 0) ((y : ℤ) + 1) (by omega)
    have e3 := wallOrOut_true_of hbw ((x : ℤ) + 1) ((y : ℤ) + 1) (by omega)
    have e4 := wallOrOut_true_of hbw ((x : ℤ) + -1) ((y : ℤ) + 0) (by omega)
    have e5 := wallOrOut_true_of hbw ((x : ℤ) + 1) ((y : ℤ) + 0) (by omega)
    simp only [e1, e2, e3, e4, e5, eq_self_iff_true, if_true]
    split_ifs <;> omega
  · have e1 := wallOrOut_true_of hbw ((x : ℤ) + -1) ((y : ℤ) + -1) (by omega)
    have e2 := wallOrOut_true_of hbw ((x : ℤ) + -1) ((y : ℤ) + 0) (by omega)
    have e3 := wallOrOut_true_of hbw ((x : ℤ) + -1) ((y : ℤ) + 1) (by omega)
    have e4 := wallOrOut_true_of hbw ((x : ℤ) + 0) ((y : ℤ) + -1) (by omega)
    have e5 := wallOrOut_true_of hbw ((x : ℤ) + 0) ((y : ℤ) + 1) (by omega)
    simp only [e1, e2, e3, e4, e5, eq_self_iff_true, if_true]
    split_ifs <;> omega
  · have e1 := wallOrOut_true_of hbw ((x : ℤ) + 1) ((y : ℤ) + -1) (by omega)
    have e2 := wallOrOut_true_of hbw ((x : ℤ) + 1) ((y : ℤ) + 0) (by omega)
    have e3 := wallOrOut_true_of hbw ((x : ℤ) + 1) ((y : ℤ) + 1) (by omega)
    have e4 := wallOrOut_true_of hbw ((x : ℤ) + 0) ((y : ℤ) + -1) (by omega)
    have e5 := wallOrOut_true_of hbw ((x : ℤ) + 0) ((y : ℤ) + 1) (by omega)
    simp only [e1, e2, e3, e4, e5, eq_self_iff_true, if_true]
    split_ifs <;> omega

/-- Under `survive <= 5`, an automaton step keeps every border cell WALL. -/
theorem caStep_border {g : Grid} {w h : ℕ} (hwf : Wf g w h) (birth survive : ℤ)
    (hs : survive ≤ 5) (hbw : BorderWall g w h) :
    BorderWall (caStep g w h birth survive) w h := by
  intro y hy x hx hb
  rw [caStep_getCell hwf birth survive hy hx]
  have hwall : getCell g y x = WALL := hbw y hy x hx hb
  have hn := border_count_ge_5 hbw hy hx hb
  show (if getCell g y x = WALL then
      (if survive ≤ ((count_wall_neighbors g x y w h : ℕ) : ℤ) then WALL else FLOOR)
    else (if birth ≤ ((count_wall_neighbors g x y w h : ℕ) : ℤ) then WALL else FLOOR)) = WALL
  rw [if_pos hwall, if_pos (by omega)]

/-- A micro-smoothing pass never writes a border cell. -/
theorem micro_smooth_border {g : Grid} {w h : ℕ} (hwf : Wf g w h)
    (hbw : BorderWall g w h) : BorderWall (micro_smooth g w h) w h := by
  intro y hy x hx hb
  rw [micro_smooth_getCell hwf hy hx, if_neg (by omega)]
  exact hbw y hy x hx hb

/-- Carving between cells that are interior keeps every border cell WALL. -/
theorem carveBranch_border {g : Grid} {w h : ℕ} (hwf : Wf g w h)
    {pq : Pos × Pos}
    (hin1 : 1 ≤ pq.1.1 ∧ pq.1.1 + 1 < h ∧ 1 ≤ pq.1.2 ∧ pq.1.2 + 1 < w)
    (hin2 : 1 ≤ pq.2.1 ∧ pq.2.1 + 1 < h ∧ 1 ≤ pq.2.2 ∧ pq.2.2 + 1 < w)
    (br : Bool) (hbw : BorderWall g w h) : BorderWall (carveBranch g pq br) w h := by
  intro y hy x hx hb
  rw [carveBranch_getCell hwf (by omega) (by omega) (by omega) (by omega) br y x]
  rw [if_neg (by
    unfold onCorridor
    cases br <;> simp only [Bool.false_eq_true, if_false, if_true] <;>
      rintro (⟨h1, h2, h3⟩ | ⟨h1, h2, h3⟩) <;> omega)]
  exact hbw y hy x hx hb

/-! ## Invariant plumbing along the pipeline trace -/

theorem iterTrace_inv (f : Grid → Grid) (P : Grid → Prop)
    (hf : ∀ g, P g → P (f g)) :
    ∀ (n : ℕ) (g : Grid), P g → ∀ g' ∈ iterTrace f n g, P g' := by
  intro n
  induction n with
  | zero => intro g _ g' hg'; simp [iterTrace] at hg'
  | succ n ih =>
      intro g hP g' hg'
      simp only [iterTrace] at hg'
      rcases List.mem_cons.mp hg' with h1 | h1
      · rw [h1]
        exact hf g hP
      · exact ih (f g) (hf g hP) g' h1

theorem getLastD_prop {α : Type} (P : α → Prop) :
    ∀ (l : List α) (d : α), P d → (∀ a ∈ l, P a) → P (l.getLastD d) := by
  intro l
  induction l with
  | nil => intro d hd _; simpa using hd
  | cons a l ih =>
      intro d _ hl
      rw [List.getLastD_cons]
      exact ih a (hl a (List.mem_cons_self a l)) (fun b hb => hl b (List.mem_cons_of_mem _ hb))

theorem foldl_inv {α β : Type} (f : α → β → α) (P : α → Prop) :
    ∀ (l : List β), (∀ a b, b ∈ l → P a → P (f a b)) → ∀ a, P a → P (l.foldl f a) := by
  intro l
  induction l with
  | nil => intro _ a hP; exact hP
  | cons b l ih =>
      intro hstep a hP
      rw [List.foldl_cons]
      exact ih (fun a' b' hb' hP' => hstep a' b' (List.mem_cons_of_mem _ hb') hP')
        (f a b) (hstep a b (List.mem_cons_self b l) hP)

theorem scanl_inv {α β : Type} (f : α → β → α) (P : α → Prop) :
    ∀ (l : List β) (init : α), (∀ a b, b ∈ l → P a → P (f a b)) → P init →
      ∀ s ∈ List.scanl f init l, P s := by
  intro l
  induction l with
  | nil =>
      intro init _ hP s hs
      simp only [List.scanl] at hs
      rcases List.mem_singleton.mp hs with h
      rw [h]
      exact hP
  | cons b l ih =>
      intro init hstep hP s hs
      rw [List.scanl_cons] at hs
      rcases List.mem_append.mp hs with h1 | h1
      · rw [List.mem_singleton.mp h1]
        exact hP
      · exact ih (f init b) (fun a' b' hb' hP' => hstep a' b' (List.mem_cons_of_mem _ hb')
          hP') (hstep init b (List.mem_cons_self b l) hP) s h1

/-- Regions found on a bordered grid consist of interior cells only. -/
theorem region_interior {g : Grid} {w h : ℕ} (hwf : Wf g w h)
    (hbw : BorderWall g w h) {R : List Pos} (hR : R ∈ flood_fill_regions g) :
    ∀ c ∈ R, 1 ≤ c.1 ∧ c.1 + 1 < h ∧ 1 ≤ c.2 ∧ c.2 + 1 < w := by
  intro c hc
  have hfl := (flood_fill_regions_spec g R hR).2 c hc
  obtain ⟨hby, hbx⟩ := floorP_bounds hwf hfl
  have hcell : getCell g c.1 c.2 = FLOOR := by
    obtain ⟨y, x⟩ := c
    exact hfl.2.2
  by_contra hcon
  have hb : c.1 = 0 ∨ c.1 = h - 1 ∨ c.2 = 0 ∨ c.2 = w - 1 := by omega
  have := hbw c.1 hby c.2 hbx hb
  rw [hcell] at this
  exact absurd this (by decide)

/-- One iteration of the corridor loop keeps the grid well-formed and its
border WALL, as long as the regions' cells are interior cells. -/
theorem carve_step_border {w h : ℕ} (regions : List (List Pos)) (mr : ℤ)
    (hne : regions ≠ [])
    (hreg : ∀ R ∈ regions, R ≠ [])
    (hint : ∀ R ∈ regions, ∀ c ∈ R, 1 ≤ c.1 ∧ c.1 + 1 < h ∧ 1 ≤ c.2 ∧ c.2 + 1 < w) :
    ∀ (gr : Grid × RNG) (R : List Pos), R ∈ regions →
      Wf gr.1 w h ∧ BorderWall gr.1 w h →
      Wf (if (R.length : ℤ) ≥ mr ∧ R ≠ largest_region regions then
            carve_corridor gr.1 (largest_region regions) R gr.2
          else gr).1 w h ∧
        BorderWall (if (R.length : ℤ) ≥ mr ∧ R ≠ largest_region regions then
            carve_corridor gr.1 (largest_region regions) R gr.2
          else gr).1 w h := by
  intro gr R hRmem hQ
  split_ifs with hcond
  · have hmain_mem := largest_region_mem regions hne
    have hmainne : largest_region regions ≠ [] := hreg _ hmain_mem
    have hRne : R ≠ [] := hreg _ hRmem
    obtain ⟨hp, hq⟩ := scanBest_mem (largest_region regions) R hmainne hRne
    have hintp := hint _ hmain_mem _ hp
    have hintq := hint _ hRmem _ hq
    unfold carve_corridor
    constructor
    · exact carveBranch_wf hQ.1 _ _
    · exact carveBranch_border hQ.1 hintp hintq _ hQ.2
  · exact hQ

/-- Claim C2 (amended): immediately after seeding all border cells are WALL,
unconditionally; and provided `survive <= 5`, EVERY grid state reached after
initial seeding — after each automaton step, each corridor carve, and each
micro-smoothing pass — has all border cells WALL.  (For `survive >= 6` an
automaton step can turn a border cell to FLOOR, see the counterexample.) -/
theorem claim_C2 (p : Params) (rng : RNG) :
    BorderWall (seedGrid p.width.toNat p.height.toNat p.fill_prob rng).1
      p.width.toNat p.height.toNat ∧
    (p.survive ≤ 5 →
      ∀ g ∈ caveTrace p rng, BorderWall g p.width.toNat p.height.toNat) := by
  obtain ⟨hwf0, hbw0⟩ := seedGrid_spec p.width.toNat p.height.toNat p.fill_prob rng
  refine ⟨hbw0, ?_⟩
  intro hs g hg
  unfold caveTrace at hg
  set w := p.width.toNat
  set h := p.height.toNat
  set seeded := seedGrid w h p.fill_prob rng with hseeded
  set caSt := iterTrace (fun g => caStep g w h p.birth p.survive) p.ca_steps.toNat seeded.1
    with hcaSt
  set gca := caSt.getLastD seeded.1 with hgca
  set regions := flood_fill_regions gca with hregions
  set carved := carvePhase gca seeded.2 regions p.min_region with hcarved
  have hQstep : ∀ g', Wf g' w h ∧ BorderWall g' w h →
      Wf (caStep g' w h p.birth p.survive) w h ∧
        BorderWall (caStep g' w h p.birth p.survive) w h :=
    fun g' hQ => ⟨caStep_wf hQ.1 p.birth p.survive,
      caStep_border hQ.1 p.birth p.survive hs hQ.2⟩
  have hQca : ∀ g' ∈ caSt, Wf g' w h ∧ BorderWall g' w h :=
    iterTrace_inv _ _ hQstep p.ca_steps.toNat seeded.1 ⟨hwf0, hbw0⟩
  have hQgca : Wf gca w h ∧ BorderWall gca w h :=
    getLastD_prop _ caSt seeded.1 ⟨hwf0, hbw0⟩ hQca
  have hregne : ∀ R ∈ regions, R ≠ [] := fun R hR => (flood_fill_regions_spec gca R hR).1
  have hint : ∀ R ∈ regions, ∀ c ∈ R, 1 ≤ c.1 ∧ c.1 + 1 < h ∧ 1 ≤ c.2 ∧ c.2 + 1 < w :=
    fun R hR => region_interior hQgca.1 hQgca.2 hR
  have hQcarve : ∀ s ∈ carveStates gca seeded.2 regions p.min_region,
      Wf s w h ∧ BorderWall s w h := by
    intro s hscs
    unfold carveStates at hscs
    split_ifs at hscs with hemp
    · exact absurd hscs (List.not_mem_nil s)
    · have hne : regions ≠ [] := fun hcon => by
        rw [hcon] at hemp
        exact hemp rfl
      rw [List.mem_map] at hscs
      obtain ⟨gr, hgr, hgreq⟩ := hscs
      have hgr' := List.mem_of_mem_tail hgr
      have := scanl_inv _ (fun gr' : Grid × RNG => Wf gr'.1 w h ∧ BorderWall gr'.1 w h)
        regions (gca, seeded.2)
        (fun a b hb hP => carve_step_border regions p.min_region hne hregne hint a b hb hP)
        hQgca gr hgr'
      rw [← hgreq]
      exact this
  have hQcarved : Wf carved.1 w h ∧ BorderWall carved.1 w h := by
    rw [hcarved]
    unfold carvePhase
    split_ifs with hemp
    · exact hQgca
    · have hne : regions ≠ [] := fun hcon => by
        rw [hcon] at hemp
        exact hemp rfl
      exact foldl_inv _ (fun gr' : Grid × RNG => Wf gr'.1 w h ∧ BorderWall gr'.1 w h)
        regions
        (fun a b hb hP => carve_step_border regions p.min_region hne hregne hint a b hb hP)
        (gca, seeded.2) hQgca
  have hQmicro : ∀ g' ∈ iterTrace (fun g'' => micro_smooth g'' w h)
      p.smoothing_passes.toNat carved.1, Wf g' w h ∧ BorderWall g' w h :=
    iterTrace_inv _ _ (fun g' hQ => ⟨micro_smooth_wf hQ.1, micro_smooth_border hQ.1 hQ.2⟩)
      p.smoothing_passes.toNat carved.1 hQcarved
  rcases List.mem_cons.mp hg with h1 | h1
  · rw [h1]
    exact hbw0
  · rcases List.mem_append.mp h1 with h2 | h2
    · rcases List.mem_append.mp h2 with h3 | h3
      · exact (hQca g h3).2
      · exact (hQcarve g h3).2
    · exact (hQmicro g h2).2

/-- Claim C2 fails as originally stated: with `survive = 8` (and
`width = height = 3`, `fill_prob = 0`, `birth = 9`, one automaton step), the
state reached after the automaton step has FLOOR border cells — every border
cell sees only 7 WALL neighbors, below `survive`. -/
theorem claim_C2_counterexample :
    ¬ ∀ g ∈ caveTrace ⟨3, 3, 0, 9, 8, 1, 0, 0⟩ (fun _ => 0), BorderWall g 3 3 := by
  decide

theorem claim_C2_witness :
    ((⟨4, 4, 1, 5, 4, 1, 0, 1⟩ : Params).survive ≤ 5) ∧
    (∀ g ∈ caveTrace ⟨4, 4, 1, 5, 4, 1, 0, 1⟩ (fun _ => 0),
      BorderWall g (⟨4, 4, 1, 5, 4, 1, 0, 1⟩ : Params).width.toNat
        (⟨4, 4, 1, 5, 4, 1, 0, 1⟩ : Params).height.toNat) :=
  ⟨by decide, (claim_C2 ⟨4, 4, 1, 5, 4, 1, 0, 1⟩ (fun _ => 0)).2 (by decide)⟩

theorem iterate_pres {α : Type} (f : α → α) (P : α → Prop) (hf : ∀ a, P a → P (f a)) :
    ∀ (n : ℕ) (a : α), P a → P (f^[n] a) := by
  intro n
  induction n with
  | zero => intro a ha; simpa using ha
  | succ n ih =>
      intro a ha
      rw [Function.iterate_succ_apply]
      exact ih (f a) (hf a ha)

/-- Claim C9 fails as originally stated: with `fill_prob = 2` (outside [0, 1])
and valid 3x3 dimensions, `generate_cave` performs no validation, raises no
InvalidParameter error, and returns the all-WALL grid. -/
theorem claim_C9_counterexample :
    generate_cave ⟨3, 3, 2, 5, 4, 0, 0, 0⟩ (fun _ => 0) =
        some [[1, 1, 1], [1, 1, 1], [1, 1, 1]] ∧
      ¬ ((⟨3, 3, 2, 5, 4, 0, 0, 0⟩ : Params).fill_prob ≤ 1) :=
  ⟨by decide, by decide⟩

/-- Claim C9 (amended): `generate_cave` performs no parameter validation and
never fails with an InvalidParameter error.  For every parameter record with
non-negative dimensions — including `fill_prob` outside [0, 1] and negative
`ca_steps`, `min_region` or `smoothing_passes` — it completes and returns a
well-formed height-by-width grid; only a negative dimension aborts (inside
`np.zeros`, not in any validation code). -/
theorem claim_C9 (p : Params) (rng : RNG) (hw : 0 ≤ p.width) (hh : 0 ≤ p.height) :
    ∃ g, generate_cave p rng = some g ∧ Wf g p.width.toNat p.height.toNat := by
  unfold generate_cave
  rw [if_neg (by omega)]
  refine ⟨_, rfl, ?_⟩
  have h0 := (seedGrid_spec p.width.toNat p.height.toNat p.fill_prob rng).1
  have h1 := iterate_pres (fun g => caStep g p.width.toNat p.height.toNat p.birth p.survive)
    (fun g => Wf g p.width.toNat p.height.toNat)
    (fun g hg => caStep_wf hg p.birth p.survive) p.ca_steps.toNat _ h0
  have h2 : Wf (carvePhase
      ((fun g => caStep g p.width.toNat p.height.toNat p.birth p.survive)^[p.ca_steps.toNat]
        (seedGrid p.width.toNat p.height.toNat p.fill_prob rng).1)
      (seedGrid p.width.toNat p.height.toNat p.fill_prob rng).2
      (flood_fill_regions
        ((fun g => caStep g p.width.toNat p.height.toNat p.birth p.survive)^[p.ca_steps.toNat]
          (seedGrid p.width.toNat p.height.toNat p.fill_prob rng).1))
      p.min_region).1 p.width.toNat p.height.toNat := by
    unfold carvePhase
    split_ifs with hemp
    · exact h1
    · refine foldl_inv _ (fun gr : Grid × RNG => Wf gr.1 p.width.toNat p.height.toNat)
        _ ?_ _ h1
      intro a b _ hP
      split_ifs with hcond
      · unfold carve_corridor
        exact carveBranch_wf hP _ _
      · exact hP
  exact iterate_pres (fun g => micro_smooth g p.width.toNat p.height.toNat)
    (fun g => Wf g p.width.toNat p.height.toNat)
    (fun g hg => micro_smooth_wf hg) p.smoothing_passes.toNat _ h2

theorem claim_C9_witness :
    (0 ≤ (⟨2, 2, -1, 0, 0, -3, -1, -2⟩ : Params).width) ∧
    (0 ≤ (⟨2, 2, -1, 0, 0, -3, -1, -2⟩ : Params).height) ∧
    (∃ g, generate_cave ⟨2, 2, -1, 0, 0, -3, -1, -2⟩ (fun _ => 0) = some g ∧
      Wf g (⟨2, 2, -1, 0, 0, -3, -1, -2⟩ : Params).width.toNat
        (⟨2, 2, -1, 0, 0, -3, -1, -2⟩ : Params).height.toNat) :=
  ⟨by decide, by decide,
    claim_C9 ⟨2, 2, -1, 0, 0, -3, -1, -2⟩ (fun _ => 0) (by decide) (by decide)⟩

/-! ## The corridor loop carves exactly the qualifying regions -/

theorem foldl_filter_cond {α β : Type} (f : α → β → α) (q : β → Prop)
    [DecidablePred q] :
    ∀ (l : List β) (init : α),
      l.foldl (fun a b => if q b then f a b else a) init =
        (l.filter (fun b => decide (q b))).foldl f init := by
  intro l
  induction l with
  | nil => intro init; rfl
  | cons b l ih =>
      intro init
      rw [List.foldl_cons, List.filter_cons]
      by_cases hq : q b
      · rw [if_pos hq, if_pos (by simpa using hq), List.foldl_cons, ih]
      · rw [if_neg hq, if_neg (by simpa using hq), ih]

theorem carve_fold_mono {w h : ℕ} (mainR : List Pos) (mr : ℤ) :
    ∀ (L : List (List Pos)) (gr : Grid × RNG), Wf gr.1 w h →
      Wf ((L.foldl (fun gr' region =>
          if (region.length : ℤ) ≥ mr ∧ region ≠ mainR then
            carve_corridor gr'.1 mainR region gr'.2
          else gr') gr).1) w h ∧
        ∀ pfl, floorP gr.1 pfl →
          floorP ((L.foldl (fun gr' region =>
            if (region.length : ℤ) ≥ mr ∧ region ≠ mainR then
              carve_corridor gr'.1 mainR region gr'.2
            else gr') gr).1) pfl := by
  intro L
  induction L with
  | nil => intro gr hwf; exact ⟨hwf, fun _ hp => hp⟩
  | cons R0 L ih =>
      intro gr hwf
      rw [List.foldl_cons]
      have hstep_wf : Wf (if (R0.length : ℤ) ≥ mr ∧ R0 ≠ mainR then
          carve_corridor gr.1 mainR R0 gr.2 else gr).1 w h := by
        split_ifs with hc0
        · exact carveBranch_wf hwf _ _
        · exact hwf
      have hstep_mono : ∀ pfl, floorP gr.1 pfl →
          floorP (if (R0.length : ℤ) ≥ mr ∧ R0 ≠ mainR then
            carve_corridor gr.1 mainR R0 gr.2 else gr).1 pfl := by
        intro pfl hp
        split_ifs with hc0
        · exact floorP_carveBranch hwf _ _ hp
        · exact hp
      obtain ⟨hwf', hmono'⟩ := ih _ hstep_wf
      exact ⟨hwf', fun pfl hp => hmono' pfl (hstep_mono pfl hp)⟩

theorem carve_fold_connect {w h : ℕ} (mainR : List Pos) (mr : ℤ) (hmainne : mainR ≠ []) :
    ∀ (L : List (List Pos)) (gr : Grid × RNG),
      Wf gr.1 w h →
      (∀ c ∈ mainR, floorP gr.1 c) →
      (∀ a ∈ mainR, ∀ b ∈ mainR, reach gr.1 a b) →
      (∀ R ∈ L, R ≠ [] ∧ (∀ c ∈ R, floorP gr.1 c) ∧ (∀ a ∈ R, ∀ b ∈ R, reach gr.1 a b)) →
      ∀ R ∈ L, ((R.length : ℤ) ≥ mr ∧ R ≠ mainR) →
        ∀ c ∈ R, ∀ m0 ∈ mainR,
          reach ((L.foldl (fun gr' region =>
            if (region.length : ℤ) ≥ mr ∧ region ≠ mainR then
              carve_corridor gr'.1 mainR region gr'.2
            else gr') gr).1) m0 c := by
  intro L
  induction L with
  | nil => intro gr _ _ _ _ R hR; exact absurd hR (List.not_mem_nil R)
  | cons R0 L ih =>
      intro gr hwf hmfl hmconn hL R hR hcond c hc m0 hm0
      rw [List.foldl_cons]
      have hstep_wf : Wf (if (R0.length : ℤ) ≥ mr ∧ R0 ≠ mainR then
          carve_corridor gr.1 mainR R0 gr.2 else gr).1 w h := by
        split_ifs with hc0
        · exact carveBranch_wf hwf _ _
        · exact hwf
      have hstep_mono : ∀ pfl, floorP gr.1 pfl →
          floorP (if (R0.length : ℤ) ≥ mr ∧ R0 ≠ mainR then
            carve_corridor gr.1 mainR R0 gr.2 else gr).1 pfl := by
        intro pfl hp
        split_ifs with hc0
        · exact floorP_carveBranch hwf _ _ hp
        · exact hp
      rcases List.mem_cons.mp hR with hR0 | hRL
      · subst hR0
        have hreach1 : reach (if (R.length : ℤ) ≥ mr ∧ R ≠ mainR then
            carve_corridor gr.1 mainR R gr.2 else gr).1 m0 c := by
          rw [if_pos hcond]
          obtain ⟨hRne, hRfl, hRconn⟩ := hL R (List.mem_cons_self R L)
          obtain ⟨hp, hq⟩ := scanBest_mem mainR R hmainne hRne
          have hbp := floorP_bounds hwf (hmfl _ hp)
          have hbq := floorP_bounds hwf (hRfl _ hq)
          show reach (carveBranch gr.1 (scanBest mainR R).2
            (decide ((randNext gr.2).1 < (1 : ℚ)/2))) m0 c
          have hmono1 : ∀ pfl, floorP gr.1 pfl →
              floorP (carveBranch gr.1 (scanBest mainR R).2
                (decide ((randNext gr.2).1 < (1 : ℚ)/2))) pfl :=
            fun pfl hp' => floorP_carveBranch hwf _ _ hp'
          have h1 : reach (carveBranch gr.1 (scanBest mainR R).2
              (decide ((randNext gr.2).1 < (1 : ℚ)/2))) m0 (scanBest mainR R).2.1 :=
            reach_mono hmono1 (hmconn m0 hm0 _ hp)
          have h2 := carve_connects hwf (scanBest mainR R).2 hbp.1 hbp.2 hbq.1 hbq.2
            (decide ((randNext gr.2).1 < (1 : ℚ)/2))
          have h3 : reach (carveBranch gr.1 (scanBest mainR R).2
              (decide ((randNext gr.2).1 < (1 : ℚ)/2))) (scanBest mainR R).2.2 c :=
            reach_mono hmono1 (hRconn _ hq c hc)
          exact (h1.trans h2).trans h3
        have hpres := carve_fold_mono mainR mr L _ hstep_wf
        exact reach_mono (fun pfl hpf => hpres.2 pfl hpf) hreach1
      · refine ih _ hstep_wf (fun c' hc' => hstep_mono c' (hmfl c' hc'))
          (fun a ha b hb => reach_mono hstep_mono (hmconn a ha b hb))
          (fun R' hR' => ⟨(hL R' (List.mem_cons_of_mem _ hR')).1,
            fun c' hc' => hstep_mono c' ((hL R' (List.mem_cons_of_mem _ hR')).2.1 c' hc'),
            fun a ha b hb =>
              reach_mono hstep_mono ((hL R' (List.mem_cons_of_mem _ hR')).2.2 a ha b hb)⟩)
          R hRL hcond c hc m0 hm0

/-- Claim C5: the corridor loop invokes the carver exactly once per region
whose size meets `min_region` and which is not the main region, and for no
other region (the loop equals the carve fold over exactly that filter); with
`min_region = 0` the size test is vacuous, so every non-main region — however
small — is carved and ends up connected to the main region's cells. -/
theorem claim_C5 {g : Grid} {w h : ℕ} (hwf : Wf g w h) (rng : RNG)
    (regions : List (List Pos)) (mr : ℤ) (hne : regions ≠ []) :
    (carvePhase g rng regions mr =
      (regions.filter
          (fun r => decide ((r.length : ℤ) ≥ mr ∧ r ≠ largest_region regions))).foldl
        (fun gr region => carve_corridor gr.1 (largest_region regions) region gr.2)
        (g, rng)) ∧
    (mr = 0 →
      regions.filter (fun r => decide ((r.length : ℤ) ≥ mr ∧ r ≠ largest_region regions)) =
        regions.filter (fun r => decide (r ≠ largest_region regions))) ∧
    (mr = 0 →
      (∀ R ∈ regions, R ≠ [] ∧ (∀ c ∈ R, floorP g c) ∧
        (∀ a ∈ R, ∀ b ∈ R, reach g a b)) →
      ∀ R ∈ regions, R ≠ largest_region regions →
        ∀ c ∈ R, ∀ m0 ∈ largest_region regions,
          reach (carvePhase g rng regions mr).1 m0 c) := by
  have hemp : ¬ (regions.isEmpty = true) := by
    simp only [List.isEmpty_iff]
    exact hne
  refine ⟨?_, ?_, ?_⟩
  · unfold carvePhase
    rw [if_neg hemp]
    exact foldl_filter_cond
      (fun gr region => carve_corridor gr.1 (largest_region regions) region gr.2)
      (fun r => (r.length : ℤ) ≥ mr ∧ r ≠ largest_region regions) regions (g, rng)
  · intro hmr
    subst hmr
    refine List.filter_congr ?_
    intro r _
    rw [decide_eq_decide]
    exact ⟨fun hc => hc.2, fun hc => ⟨Int.natCast_nonneg _, hc⟩⟩
  · intro hmr hregs R hR hRmain c hc m0 hm0
    have hmain_mem := largest_region_mem regions hne
    have hmainne : largest_region regions ≠ [] := (hregs _ hmain_mem).1
    unfold carvePhase
    rw [if_neg hemp]
    exact carve_fold_connect (largest_region regions) mr hmainne regions (g, rng) hwf
      ((hregs _ hmain_mem).2.1) ((hregs _ hmain_mem).2.2) hregs R hR
      ⟨by omega, hRmain⟩ c hc m0 hm0

theorem claim_C5_witness :
    Wf [[1, 1, 1, 1, 1], [1, 0, 1, 0, 1], [1, 1, 1, 1, 1]] 5 3 ∧
    ([[((1 : ℕ), (1 : ℕ))], [((1 : ℕ), (3 : ℕ))]] ≠ ([] : List (List Pos))) ∧
    (∀ R ∈ [[((1 : ℕ), (1 : ℕ))], [((1 : ℕ), (3 : ℕ))]], R ≠ [] ∧
      (∀ c ∈ R, floorP [[1, 1, 1, 1, 1], [1, 0, 1, 0, 1], [1, 1, 1, 1, 1]] c) ∧
      (∀ a ∈ R, ∀ b ∈ R, reach [[1, 1, 1, 1, 1], [1, 0, 1, 0, 1], [1, 1, 1, 1, 1]] a b)) ∧
    ((carvePhase [[1, 1, 1, 1, 1], [1, 0, 1, 0, 1], [1, 1, 1, 1, 1]] (fun _ => 0)
        [[(1, 1)], [(1, 3)]] 0 =
      ([[((1 : ℕ), (1 : ℕ))], [((1 : ℕ), (3 : ℕ))]].filter
          (fun r => decide ((r.length : ℤ) ≥ 0 ∧
            r ≠ largest_region [[(1, 1)], [(1, 3)]]))).foldl
        (fun gr region =>
          carve_corridor gr.1 (largest_region [[(1, 1)], [(1, 3)]]) region gr.2)
        ([[1, 1, 1, 1, 1], [1, 0, 1, 0, 1], [1, 1, 1, 1, 1]], fun _ => 0)) ∧
    ((0 : ℤ) = 0 →
      [[((1 : ℕ), (1 : ℕ))], [((1 : ℕ), (3 : ℕ))]].filter
          (fun r => decide ((r.length : ℤ) ≥ 0 ∧
            r ≠ largest_region [[(1, 1)], [(1, 3)]])) =
        [[((1 : ℕ), (1 : ℕ))], [((1 : ℕ), (3 : ℕ))]].filter
          (fun r => decide (r ≠ largest_region [[(1, 1)], [(1, 3)]]))) ∧
    ((0 : ℤ) = 0 →
      (∀ R ∈ [[((1 : ℕ), (1 : ℕ))], [((1 : ℕ), (3 : ℕ))]], R ≠ [] ∧
        (∀ c ∈ R, floorP [[1, 1, 1, 1, 1], [1, 0, 1, 0, 1], [1, 1, 1, 1, 1]] c) ∧
        (∀ a ∈ R, ∀ b ∈ R, reach [[1, 1, 1, 1, 1], [1, 0, 1, 0, 1], [1, 1, 1, 1, 1]] a b)) →
      ∀ R ∈ [[((1 : ℕ), (1 : ℕ))], [((1 : ℕ), (3 : ℕ))]],
        R ≠ largest_region [[(1, 1)], [(1, 3)]] →
        ∀ c ∈ R, ∀ m0 ∈ largest_region [[(1, 1)], [(1, 3)]],
          reach (carvePhase [[1, 1, 1, 1, 1], [1, 0, 1, 0, 1], [1, 1, 1, 1, 1]]
            (fun _ => 0) [[(1, 1)], [(1, 3)]] 0).1 m0 c)) := by
  have hregs : ∀ R ∈ [[((1 : ℕ), (1 : ℕ))], [((1 : ℕ), (3 : ℕ))]], R ≠ [] ∧
      (∀ c ∈ R, floorP [[1, 1, 1, 1, 1], [1, 0, 1, 0, 1], [1, 1, 1, 1, 1]] c) ∧
      (∀ a ∈ R, ∀ b ∈ R, reach [[1, 1, 1, 1, 1], [1, 0, 1, 0, 1], [1, 1, 1, 1, 1]] a b) := by
    intro R hR
    rcases List.mem_cons.mp hR with h1 | h1
    · subst h1
      refine ⟨by decide, by decide, ?_⟩
      intro a ha b hb
      rw [List.mem_singleton.mp ha, List.mem_singleton.mp hb]
      exact Relation.ReflTransGen.refl
    · rw [List.mem_singleton.mp h1]
      refine ⟨by decide, by decide, ?_⟩
      intro a ha b hb
      rw [List.mem_singleton.mp ha, List.mem_singleton.mp hb]
      exact Relation.ReflTransGen.refl
  exact ⟨by decide, by decide, hregs,
    @claim_C5 [[1, 1, 1, 1, 1], [1, 0, 1, 0, 1], [1, 1, 1, 1, 1]] 5 3 (by decide)
      (fun _ => 0) [[(1, 1)], [(1, 3)]] 0 (by decide)⟩

end CaveGen
